import Mathlib

/-!
# Multiscale sliding windows: `multiscale_slidewins_image` of `Source.cpp`

A shallow embedding of `multiscale_slidewins_image` and theorems about it.

Conventions of the embedding.

* A `double` value is a rational number (`ℚ`).  The operations that the function
  performs on `double` values are the fields of a parameter `D : DoubleArith`: the
  product, the quotient, `std::pow` and the floor of the quotient of logarithms of
  lines 54-55.  `std::floor` and the roundings `std::round` and `cvRound` of a
  `double` to an integer are exact operations and are not parameters.
* `exact_arith` is the arithmetic without rounding error.  `Accurate D` states that
  every operation of `D` is within the relative error `rel_err = 2 ^ (-40)` of the
  exact result, at the magnitudes between `2 ^ (-100)` and `2 ^ 100`; IEEE-754
  binary64 rounds a product and a quotient with relative error `2 ^ (-53)`, and
  `exact_arith` is accurate as well (`exact_arith_accurate`).
* The theorems that depend on rounded values (the scale count, the resampled
  extents, the rectangles of the scale indices above 0, the pre-allocation bound)
  hold for every accurate arithmetic.  The evaluations of the code at a concrete
  input and the theorems about scale index 0, about the feature count and about
  invalid arguments use `exact_arith`.
* `int` values are integers (`Int`) assumed to stay in range; the places where
  the source mixes `int` with the unsigned 64-bit `size_t` (loop counters, loop
  bounds, `i += stride`) are computed modulo `2 ^ 64`, and the `unsigned int`
  counter `nslidewins_total` is computed modulo `2 ^ 32`.
* `std::vector` is `List`; `reserve` has no observable effect.
* A call that does not return normally yields a `Fault`.
* `cv::Mat` keeps its extent and its pixels; the pixel values that `cv::resize`
  interpolates are a parameter (`interp`), its output extent is the one OpenCV
  computes.
-/

namespace SlideWins

/-- The `cv::Rect` of the source: `x`, `y`, `width`, `height`. -/
structure Rect where
  x : Int
  y : Int
  width : Int
  height : Int
deriving DecidableEq, Repr

/-- The part of `cv::Mat` the function reads: extent and pixel values. -/
structure Mat (α : Type) where
  rows : Int
  cols : Int
  px : Int → Int → α

/-- Ways in which a call ends without returning a result. -/
inductive Fault where
  /-- `std::length_error` of `scales.resize` for a negative count. -/
  | length_error
  /-- `cv::Exception` raised by an assertion of `cv::resize` or of `cv::Mat::operator()`. -/
  | cv_error
  /-- Behaviour the C++ standard leaves undefined: integer division by zero, or
  conversion of a negative `double` to `size_t`. -/
  | undefined
  /-- The `double` computation leaves the finite numbers (logarithm of a
  non-positive quotient, division by `log 1 = 0`, division by a zero window
  size); its IEEE-754 outcome is outside this embedding. -/
  | ieee_special
  /-- A `for` loop over a `size_t` counter that never exits. -/
  | diverges
deriving DecidableEq, Repr

/-- The `double` operations of the platform that the function uses, on finite
values.
* `log_quot_floor n w r` is `std::floor (std::log (static_cast<double> (n) / w) / std::log (r))`
  of lines 54-55, for `int` values `n`, `w` and a `double` `r`;
* `pow r s` is `std::pow (r, s)` for a `size_t` `s`;
* `mul x y` is the product `x * y` and `div x y` the quotient `x / y`, as `double`. -/
structure DoubleArith where
  log_quot_floor : Int → Int → ℚ → Int
  pow : ℚ → Nat → ℚ
  mul : ℚ → ℚ → ℚ
  div : ℚ → ℚ → ℚ

/-- The function `std::round` on `double`: nearest integer, halves away from zero. -/
def std_round (x : ℚ) : Int :=
  if 0 ≤ x then ⌊x + 1 / 2⌋ else ⌈x - 1 / 2⌉

/-- The function `cvRound` of OpenCV (used by `saturate_cast<int>` in `cv::resize`):
nearest integer, halves to the even neighbour. -/
def cvRound (x : ℚ) : Int :=
  if x - ⌊x⌋ < 1 / 2 then ⌊x⌋
  else if 1 / 2 < x - ⌊x⌋ then ⌊x⌋ + 1
  else if ⌊x⌋ % 2 = 0 then ⌊x⌋ else ⌊x⌋ + 1

/-- Number of factors `b` that can be multiplied onto `p` without exceeding `q`
(at most `fuel`). -/
def pow_steps_le (b q : ℚ) : Nat → ℚ → Nat
  | 0, _ => 0
  | fuel + 1, p => if p * b ≤ q then 1 + pow_steps_le b q fuel (p * b) else 0

/-- Number of factors `b` that must be multiplied onto `p` to reach `1`
(at most `fuel`). -/
def pow_steps_lt (b : ℚ) : Nat → ℚ → Nat
  | 0, _ => 0
  | fuel + 1, p => if p < 1 then 1 + pow_steps_lt b fuel (p * b) else 0

/-- The value `floor (log q / log b)` for `1 < b` and `0 < q`, without rounding
error: the integer `k` with `b ^ k ≤ q < b ^ (k + 1)`. -/
def floor_log_gt_one (b q : ℚ) : Int :=
  if 1 ≤ q then (pow_steps_le b q ⌈q / (b - 1)⌉.toNat 1 : Int)
  else -(pow_steps_lt b ⌈q⁻¹ / (b - 1)⌉.toNat q : Int)

/-- The value `floor (log q / log b)` for `0 < b`, `b ≠ 1` and `0 < q`, without
rounding error.  For `b < 1` both logarithms change sign:
`log q / log b = log q⁻¹ / log b⁻¹`. -/
def floor_log (b q : ℚ) : Int :=
  if 1 < b then floor_log_gt_one b q else floor_log_gt_one b⁻¹ q⁻¹

/-- The arithmetic without rounding error: every operation returns the exact
result. -/
def exact_arith : DoubleArith :=
  ⟨fun n w r => floor_log r ((n : ℚ) / w), fun r s => r ^ s, fun x y => x * y,
    fun x y => x / y⟩

/-- Lines 52-55: `num_scales = min (floor (log (nrows_img / winsize[0]) / log scaleratio),
floor (log (ncols_img / winsize[1]) / log scaleratio)) + 1`. -/
def num_scales (D : DoubleArith) (nrows_img ncols_img winsize0 winsize1 : Int)
    (scaleratio : ℚ) : Except Fault Int :=
  if 0 < nrows_img ∧ 0 < ncols_img ∧ 0 < winsize0 ∧ 0 < winsize1 ∧
      0 < scaleratio ∧ scaleratio ≠ 1 then
    .ok (min (D.log_quot_floor nrows_img winsize0 scaleratio)
      (D.log_quot_floor ncols_img winsize1 scaleratio) + 1)
  else .error .ieee_special

/-- Lines 63-72: the loop that accumulates `nslidewins_total_ub` over the scales
`s, s + 1, ...` (`todo` of them).  The values `nsw_rows`, `nsw_cols` and their
product are integers held in a `double`. -/
def ub_loop (D : DoubleArith) (nrows_img ncols_img winsize0 winsize1 : Int) (scaleratio : ℚ)
    (stride : Int) : Nat → Nat → Int → Except Fault Int
  | 0, _, ub => .ok ub
  | todo + 1, s, ub =>
    if stride = 0 then .error .undefined
    else
      let stride_scale : ℚ := D.mul stride (D.pow scaleratio s)
      let nsw_rows : Int := ⌊D.div nrows_img stride_scale⌋ - Int.tdiv winsize0 stride + 1
      let nsw_cols : Int := ⌊D.div ncols_img stride_scale⌋ - Int.tdiv winsize1 stride + 1
      let ub1 : Int := ub + (nsw_rows + 1) * (nsw_cols + 1)
      if ub1 < 0 then .error .undefined
      else ub_loop D nrows_img ncols_img winsize0 winsize1 scaleratio stride todo (s + 1) ub1

/-- Lines 60-72: the pre-allocation bound `nslidewins_total_ub` for `n` scales. -/
def nslidewins_total_ub (D : DoubleArith) (nrows_img ncols_img winsize0 winsize1 : Int)
    (scaleratio : ℚ) (stride : Int) (n : Nat) : Except Fault Int :=
  ub_loop D nrows_img ncols_img winsize0 winsize1 scaleratio stride n 0 0

/-- The local variables of `multiscale_slidewins_image` that the loops update. -/
structure State where
  scales : List ℚ
  nslidewins_total : Nat
  dr : List Rect
  feats : List (List ℚ)
  idx2scale4dr : List Nat

/-- Number of values of a `size_t`. -/
def SIZE_MOD : Nat := 2 ^ 64

/-- Number of values of an `unsigned int`, the type of `nslidewins_total` (line 35). -/
def UINT_MOD : Nat := 2 ^ 32

/-- Conversion of an `int` to `size_t`. -/
def to_size_t (z : Int) : Nat := (z % (SIZE_MOD : Int)).toNat

/-- The matrix that `cv::resize (src, dst, cv::Size (), fx, fy, cv::INTER_LINEAR)`
produces: its extent is `cvRound (src.cols * fx)` by `cvRound (src.rows * fy)`, the
products being `double` products; an output of the source's extent is a copy of
the source, and any other output holds the interpolated pixels. -/
def resized {α : Type} (D : DoubleArith) (interp : Mat α → ℚ → ℚ → Int → Int → α)
    (src : Mat α) (fx fy : ℚ) : Mat α :=
  ⟨cvRound (D.mul src.rows fy), cvRound (D.mul src.cols fx),
    if cvRound (D.mul src.rows fy) = src.rows ∧ cvRound (D.mul src.cols fx) = src.cols then
      src.px
    else interp src fx fy⟩

/-- The call `cv::resize (src, dst, cv::Size (), fx, fy, cv::INTER_LINEAR)`: an empty
source, a non-positive factor or an empty output extent fail an assertion. -/
def resize {α : Type} (D : DoubleArith) (interp : Mat α → ℚ → ℚ → Int → Int → α)
    (src : Mat α) (fx fy : ℚ) : Except Fault (Mat α) :=
  if 0 < src.rows ∧ 0 < src.cols ∧ 0 < fx ∧ 0 < fy then
    if 0 < (resized D interp src fx fy).cols ∧ 0 < (resized D interp src fx fy).rows then
      .ok (resized D interp src fx fy)
    else .error .cv_error
  else .error .cv_error

/-- The matrix header `m (cv::Rect (x, y, width, height))`. -/
def sub_matrix {α : Type} (m : Mat α) (x y width height : Int) : Mat α :=
  ⟨height, width, fun a b => m.px (y + a) (x + b)⟩

/-- The call `m (cv::Rect (x, y, width, height))` of `cv::Mat::operator()`; a
rectangle that leaves the matrix fails an assertion. -/
def roi {α : Type} (m : Mat α) (x y width height : Int) : Except Fault (Mat α) :=
  if 0 ≤ x ∧ 0 ≤ width ∧ x + width ≤ m.cols ∧ 0 ≤ y ∧ 0 ≤ height ∧ y + height ≤ m.rows then
    .ok (sub_matrix m x y width height)
  else .error .cv_error

/-- Lines 99-115: the body of the column loop at scale index `s`, row `i`, column `j`. -/
def window_body {α : Type} (D : DoubleArith) (img_cur : Mat α) (winsize0 winsize1 : Int)
    (scale_s : ℚ) (feature_extractor : Option (Mat α → List ℚ)) (s i j : Nat) (st : State) :
    Except Fault State :=
  let dr1 := st.dr ++ [Rect.mk (std_round (D.mul j scale_s)) (std_round (D.mul i scale_s))
    (std_round (D.mul winsize1 scale_s)) (std_round (D.mul winsize0 scale_s))]
  let idx1 := st.idx2scale4dr ++ [s]
  match feature_extractor with
  | none =>
    .ok { st with dr := dr1, idx2scale4dr := idx1,
                  nslidewins_total := (st.nslidewins_total + 1) % UINT_MOD }
  | some f =>
    match roi img_cur j i winsize1 winsize0 with
    | .error e => .error e
    | .ok sub =>
      .ok { st with dr := dr1, idx2scale4dr := idx1, feats := st.feats ++ [f sub],
                    nslidewins_total := (st.nslidewins_total + 1) % UINT_MOD }

/-- A loop `for (size_t i = i0; i < bound; i += step) body`: `fuel` bounds the
number of iterations. -/
def for_loop (bound step : Nat) (body : Nat → State → Except Fault State) :
    Nat → Nat → State → Except Fault State
  | 0, _, _ => .error .diverges
  | fuel + 1, i, st =>
    if i < bound then
      match body i st with
      | .error e => .error e
      | .ok st1 => for_loop bound step body fuel ((i + step) % SIZE_MOD) st1
    else .ok st

/-- Lines 95-118: the row loop and, inside it, the column loop over the resampled
image `img_cur` at scale index `s`.  A `size_t` counter has `SIZE_MOD` values, so
a loop that has not exited after `SIZE_MOD` iterations never exits. -/
def slide_windows {α : Type} (D : DoubleArith) (img_cur : Mat α) (winsize0 winsize1 : Int)
    (scale_s : ℚ) (stride : Int) (feature_extractor : Option (Mat α → List ℚ)) (s : Nat)
    (st : State) : Except Fault State :=
  for_loop (to_size_t (img_cur.rows - winsize0 + 1)) (to_size_t stride)
    (fun i sti =>
      for_loop (to_size_t (img_cur.cols - winsize1 + 1)) (to_size_t stride)
        (window_body D img_cur winsize0 winsize1 scale_s feature_extractor s i)
        SIZE_MOD 0 sti)
    SIZE_MOD 0 st

/-- Lines 87-120: the loop over the scales `s, s + 1, ...` (`todo` of them). -/
def scale_loop {α : Type} (D : DoubleArith) (interp : Mat α → ℚ → ℚ → Int → Int → α)
    (img : Mat α) (winsize0 winsize1 : Int) (scaleratio : ℚ) (stride : Int)
    (feature_extractor : Option (Mat α → List ℚ)) : Nat → Nat → State → Except Fault State
  | 0, _, st => .ok st
  | todo + 1, s, st =>
    let st1 : State := { st with scales := st.scales.set s (D.pow scaleratio s) }
    let scale_s : ℚ := st1.scales.getD s 0
    match resize D interp img (D.div 1 scale_s) (D.div 1 scale_s) with
    | .error e => .error e
    | .ok img_cur =>
      match slide_windows D img_cur winsize0 winsize1 scale_s stride feature_extractor s
          st1 with
      | .error e => .error e
      | .ok st2 =>
        scale_loop D interp img winsize0 winsize1 scaleratio stride feature_extractor
          todo (s + 1) st2

/-- The body of `multiscale_slidewins_image` up to the `return`, with all its
local variables.  The parameter `max_nscales` is never read. -/
def run {α : Type} (D : DoubleArith) (interp : Mat α → ℚ → ℚ → Int → Int → α) (img : Mat α)
    (winsize_rows winsize_cols : Int) (scaleratio : ℚ) (_max_nscales : Int) (stride : Int)
    (feature_extractor : Option (Mat α → List ℚ)) : Except Fault State :=
  match num_scales D img.rows img.cols winsize_rows winsize_cols scaleratio with
  | .error e => .error e
  | .ok n =>
    if n < 0 then .error .length_error
    else
      match nslidewins_total_ub D img.rows img.cols winsize_rows winsize_cols scaleratio
          stride n.toNat with
      | .error e => .error e
      | .ok _ =>
        scale_loop D interp img winsize_rows winsize_cols scaleratio stride feature_extractor
          n.toNat 0 ⟨List.replicate n.toNat 0, 0, [], [], []⟩

/-- The function `multiscale_slidewins_image`: the rectangles and the feature vectors. -/
def multiscale_slidewins_image {α : Type} (D : DoubleArith)
    (interp : Mat α → ℚ → ℚ → Int → Int → α)
    (img : Mat α) (winsize_rows winsize_cols : Int) (scaleratio : ℚ) (max_nscales : Int)
    (stride : Int) (feature_extractor : Option (Mat α → List ℚ)) :
    Except Fault (List Rect × List (List ℚ)) :=
  match run D interp img winsize_rows winsize_cols scaleratio max_nscales stride
      feature_extractor with
  | .error e => .error e
  | .ok st => .ok (st.dr, st.feats)

/-- Equality of call outcomes is decidable. -/
instance instDecidableEqOutcome {ε β : Type} [DecidableEq ε] [DecidableEq β] :
    DecidableEq (Except ε β)
  | .ok a, .ok b => if h : a = b then isTrue (by rw [h]) else isFalse (fun h1 => h (by cases h1; rfl))
  | .error a, .error b =>
    if h : a = b then isTrue (by rw [h]) else isFalse (fun h1 => h (by cases h1; rfl))
  | .ok _, .error _ => isFalse (fun h => by cases h)
  | .error _, .ok _ => isFalse (fun h => by cases h)

/-- An image without pixel content, of the given extent. -/
def blank_image (rows cols : Int) : Mat Unit := ⟨rows, cols, fun _ _ => ()⟩

/-- The interpolation of images without pixel content. -/
def blank_interp : Mat Unit → ℚ → ℚ → Int → Int → Unit := fun _ _ _ _ _ => ()

/-- The relative error allowed to a `double` operation: `2 ^ (-40)`. -/
def rel_err : ℚ := 1 / 2 ^ 40

/-- A magnitude at which a `double` operation neither overflows nor underflows:
zero, or between `2 ^ (-100)` and `2 ^ 100`. -/
def moderate (x : ℚ) : Prop := x = 0 ∨ (1 / 2 ^ 100 ≤ x ∧ x ≤ 2 ^ 100)

/-- The arithmetic `D` is accurate: every operation is within the relative error
`rel_err` of the exact result.
* For an image extent `n < 2 ^ 31` at least as large as the window size `w` and a
  scale ratio `r > 1`, the integer `k = log_quot_floor n w r` is not negative and
  `r ^ k` exceeds `n / w` by at most the relative error.
* `pow r s` is within the relative error of `r ^ s`, for `r ^ s ≤ 2 ^ 32`.
* `mul x y` and `div x y` are within the relative error of `x * y` and `x / y`,
  for operands of moderate magnitude. -/
structure Accurate (D : DoubleArith) : Prop where
  log_quot_floor_nonneg : ∀ (n w : Int) (r : ℚ), 0 < w → w ≤ n → n < 2 ^ 31 → 1 < r →
    0 ≤ D.log_quot_floor n w r
  log_quot_floor_le : ∀ (n w : Int) (r : ℚ), 0 < w → w ≤ n → n < 2 ^ 31 → 1 < r →
    (w : ℚ) * r ^ (D.log_quot_floor n w r).toNat ≤ n * (1 + rel_err)
  pow_ge : ∀ (r : ℚ) (s : Nat), 1 < r → r ^ s ≤ 2 ^ 32 → (1 - rel_err) * r ^ s ≤ D.pow r s
  pow_le : ∀ (r : ℚ) (s : Nat), 1 < r → r ^ s ≤ 2 ^ 32 → D.pow r s ≤ (1 + rel_err) * r ^ s
  mul_ge : ∀ x y : ℚ, moderate x → moderate y → (1 - rel_err) * (x * y) ≤ D.mul x y
  mul_le : ∀ x y : ℚ, moderate x → moderate y → D.mul x y ≤ (1 + rel_err) * (x * y)
  div_ge : ∀ x y : ℚ, moderate x → moderate y → 0 < y → (1 - rel_err) * (x / y) ≤ D.div x y
  div_le : ∀ x y : ℚ, moderate x → moderate y → 0 < y → D.div x y ≤ (1 + rel_err) * (x / y)

/-- The arithmetic `exact_arith` with one rounded value: at the extent 1000, the
window size 1 and the scale ratio 10 the floor of the log quotient of lines 54-55
is 2, the floor of the IEEE-754 binary64 quotient
`std::log (1000.0) / std::log (10.0) = 2.9999999999999996`. -/
def rounded_log_arith : DoubleArith :=
  { exact_arith with
    log_quot_floor := fun n w r =>
      if n = 1000 ∧ w = 1 ∧ r = 10 then 2 else exact_arith.log_quot_floor n w r }

/-- The iterative probe of the specification: the window is scaled by `scaleratio`
until it no longer fits both image dimensions; the result counts the scales that
fit (at most `fuel`). -/
def probe_loop (nrows_img ncols_img : ℚ) (scaleratio : ℚ) : Nat → ℚ → ℚ → Nat
  | 0, _, _ => 0
  | fuel + 1, h, w =>
    if h ≤ nrows_img ∧ w ≤ ncols_img then
      1 + probe_loop nrows_img ncols_img scaleratio fuel (h * scaleratio) (w * scaleratio)
    else 0

/-- The iterative probe of the specification, started at the unscaled window. -/
def iterative_probe (nrows_img ncols_img winsize0 winsize1 : Int) (scaleratio : ℚ) : Nat :=
  probe_loop nrows_img ncols_img scaleratio
    (⌈((nrows_img : ℚ) / winsize0) / (scaleratio - 1)⌉.toNat + 2) winsize0 winsize1

/-- The preconditions of `multiscale_slidewins_image`: positive window sizes, a
scale ratio above one, `max_nscales ≥ 1`, a positive stride and an image at least
as large as the window; the image extent and the stride are `int` values. -/
def valid_input {α : Type} (img : Mat α) (winsize_rows winsize_cols : Int) (scaleratio : ℚ)
    (max_nscales stride : Int) : Prop :=
  0 < winsize_rows ∧ 0 < winsize_cols ∧ 1 < scaleratio ∧ 1 ≤ max_nscales ∧ 0 < stride ∧
    winsize_rows ≤ img.rows ∧ winsize_cols ≤ img.cols ∧
    img.rows < 2 ^ 31 ∧ img.cols < 2 ^ 31 ∧ stride < 2 ^ 31

/-- Extent (rows or columns) of the image resampled at scale index `s`: the extent
times `1.0 / scales[s]`, rounded as `cv::resize` rounds it. -/
def resampled_extent (D : DoubleArith) (extent : Int) (scaleratio : ℚ) (s : Nat) : Int :=
  cvRound (D.mul extent (D.div 1 (D.pow scaleratio s)))

/-- The image resampled at scale index `s`. -/
def resampled {α : Type} (D : DoubleArith) (interp : Mat α → ℚ → ℚ → Int → Int → α)
    (img : Mat α) (scaleratio : ℚ) (s : Nat) : Mat α :=
  resized D interp img (D.div 1 (D.pow scaleratio s)) (D.div 1 (D.pow scaleratio s))

/-- The stride grid along one axis: the positions `0, stride, 2 * stride, ...` at
which a window of size `win` ends within `extent`. -/
def grid (extent win stride : Int) : List Nat :=
  List.range' 0 ((extent - win) / stride + 1).toNat stride.toNat

/-- The windows `(s, i, j)` of scale index `s` in row-major order. -/
def windows_at_scale (D : DoubleArith) (nrows_img ncols_img winsize0 winsize1 : Int)
    (scaleratio : ℚ) (stride : Int) (s : Nat) : List (Nat × Nat × Nat) :=
  (grid (resampled_extent D nrows_img scaleratio s) winsize0 stride).flatMap (fun i =>
    (grid (resampled_extent D ncols_img scaleratio s) winsize1 stride).flatMap
      (fun j => [(s, i, j)]))

/-- The windows `(s, i, j)` of the scale indices `0, ..., n - 1`, scale-major. -/
def planned_windows (D : DoubleArith) (nrows_img ncols_img winsize0 winsize1 : Int)
    (scaleratio : ℚ) (stride : Int) (n : Nat) : List (Nat × Nat × Nat) :=
  (List.range' 0 n).flatMap
    (windows_at_scale D nrows_img ncols_img winsize0 winsize1 scaleratio stride)

/-- The rectangle in original-image coordinates of the window `(s, i, j)`. -/
def window_rect (D : DoubleArith) (winsize0 winsize1 : Int) (scaleratio : ℚ)
    (w : Nat × Nat × Nat) : Rect :=
  ⟨std_round (D.mul w.2.2 (D.pow scaleratio w.1)), std_round (D.mul w.2.1 (D.pow scaleratio w.1)),
    std_round (D.mul winsize1 (D.pow scaleratio w.1)),
    std_round (D.mul winsize0 (D.pow scaleratio w.1))⟩

/-- The feature vector of the window `(s, i, j)`: the extractor applied to the
sub-window of the image resampled at scale index `s`. -/
def window_feature {α : Type} (D : DoubleArith) (interp : Mat α → ℚ → ℚ → Int → Int → α)
    (img : Mat α) (winsize0 winsize1 : Int) (scaleratio : ℚ) (f : Mat α → List ℚ)
    (w : Nat × Nat × Nat) : List ℚ :=
  f (sub_matrix (resampled D interp img scaleratio w.1) w.2.2 w.2.1 winsize1 winsize0)

/-- The feature vectors of a list of windows: none without an extractor. -/
def window_features {α : Type} (D : DoubleArith) (interp : Mat α → ℚ → ℚ → Int → Int → α)
    (img : Mat α) (winsize0 winsize1 : Int) (scaleratio : ℚ)
    (feature_extractor : Option (Mat α → List ℚ)) (ws : List (Nat × Nat × Nat)) :
    List (List ℚ) :=
  match feature_extractor with
  | none => []
  | some f => ws.map (window_feature D interp img winsize0 winsize1 scaleratio f)

/-- The counter `nslidewins_total` after `k` increments. -/
def counted (total k : Nat) : Nat :=
  if k = 0 then total else (total + k) % UINT_MOD

/-- The state after the windows `ws` have been appended to the accumulators. -/
def extend {α : Type} (D : DoubleArith) (interp : Mat α → ℚ → ℚ → Int → Int → α)
    (img : Mat α) (winsize0 winsize1 : Int) (scaleratio : ℚ)
    (feature_extractor : Option (Mat α → List ℚ)) (st : State)
    (ws : List (Nat × Nat × Nat)) : State :=
  ⟨st.scales, counted st.nslidewins_total ws.length,
    st.dr ++ ws.map (window_rect D winsize0 winsize1 scaleratio),
    st.feats ++ window_features D interp img winsize0 winsize1 scaleratio feature_extractor ws,
    st.idx2scale4dr ++ ws.map (fun w => w.1)⟩

/-- The vector `scales` after the entries `s, ..., s + todo - 1` have been assigned. -/
def set_scales (D : DoubleArith) (scaleratio : ℚ) : Nat → Nat → List ℚ → List ℚ
  | 0, _, l => l
  | todo + 1, s, l => set_scales D scaleratio todo (s + 1) (l.set s (D.pow scaleratio s))

/-- The contribution of scale index `s` to the pre-allocation bound:
`(floor (R / (stride * r ^ s)) - floor (wr / stride) + 2) *
(floor (C / (stride * r ^ s)) - floor (wc / stride) + 2)`, the power, the product
and the quotient being those of `double`. -/
def ub_term (D : DoubleArith) (nrows_img ncols_img winsize0 winsize1 : Int) (scaleratio : ℚ)
    (stride : Int) (s : Nat) : Int :=
  (⌊D.div nrows_img (D.mul stride (D.pow scaleratio s))⌋ - ⌊(winsize0 : ℚ) / stride⌋ + 2) *
    (⌊D.div ncols_img (D.mul stride (D.pow scaleratio s))⌋ - ⌊(winsize1 : ℚ) / stride⌋ + 2)

/-- The local variables at the `return` of a call that plans `n` scales and
enumerates the windows `ws`. -/
def final_state {α : Type} (D : DoubleArith) (interp : Mat α → ℚ → ℚ → Int → Int → α)
    (img : Mat α) (winsize0 winsize1 : Int) (scaleratio : ℚ)
    (feature_extractor : Option (Mat α → List ℚ))
    (n : Nat) (ws : List (Nat × Nat × Nat)) : State :=
  ⟨set_scales D scaleratio n 0 (List.replicate n 0), ws.length % UINT_MOD,
    ws.map (window_rect D winsize0 winsize1 scaleratio),
    window_features D interp img winsize0 winsize1 scaleratio feature_extractor ws,
    ws.map (fun w => w.1)⟩

/-- The returned rectangles that the scale-index vector `idx2scale4dr` assigns
to scale index `s`. -/
def rects_of_scale (st : State) (s : Nat) : List Rect :=
  ((st.dr.zip st.idx2scale4dr).filter (fun p => decide (p.2 = s))).map Prod.fst

/-- Lines 66-67: the product `nsw_rows * nsw_cols` at scale index `s` as it is before
the increment of line 70, which the comment of lines 68-69 calls the exact number
of sliding windows. -/
def nsw_without_increment (D : DoubleArith) (nrows_img ncols_img winsize0 winsize1 : Int)
    (scaleratio : ℚ) (stride : Int) (s : Nat) : Int :=
  (⌊D.div nrows_img (D.mul stride (D.pow scaleratio s))⌋ - Int.tdiv winsize0 stride + 1) *
    (⌊D.div ncols_img (D.mul stride (D.pow scaleratio s))⌋ - Int.tdiv winsize1 stride + 1)

/-- The first returned rectangle exists and `idx2scale4dr` assigns it to scale index `s`. -/
def starts_at_scale (s : Nat) (st : State) : Prop :=
  ∃ (rect : Rect) (rs : List Rect) (is : List Nat),
    st.dr = rect :: rs ∧ st.idx2scale4dr = s :: is

/-! # Lemmas -/

/-! ## The scale count -/

theorem pow_steps_le_spec (b q : ℚ) (hb : 1 < b) :
    ∀ (fuel : Nat) (p : ℚ), 0 < p → p ≤ q → (∀ k : Nat, p * b ^ k ≤ q → k ≤ fuel) →
      p * b ^ (pow_steps_le b q fuel p) ≤ q ∧ q < p * b ^ (pow_steps_le b q fuel p + 1) := by
  intro fuel
  induction fuel with
  | zero =>
    intro p _ hpq hk
    simp only [pow_steps_le, pow_zero, mul_one, zero_add, pow_one]
    refine ⟨hpq, ?_⟩
    by_contra hcon
    have := hk 1 (by simpa using not_lt.mp hcon)
    omega
  | succ fuel ih =>
    intro p hp hpq hk
    by_cases hstep : p * b ≤ q
    · have hpb : 0 < p * b := mul_pos hp (by linarith)
      have hk1 : ∀ k : Nat, p * b * b ^ k ≤ q → k ≤ fuel := by
        intro k hkq
        have := hk (k + 1) (by rw [pow_succ']; linarith [mul_assoc p b (b ^ k)])
        omega
      obtain ⟨h1, h2⟩ := ih (p * b) hpb hstep hk1
      simp only [pow_steps_le, hstep, if_true]
      constructor
      · rw [add_comm 1, pow_succ', ← mul_assoc]; exact h1
      · rw [add_comm 1, pow_succ' b (_ + 1), ← mul_assoc]; exact h2
    · simp only [pow_steps_le, hstep, if_false, pow_zero, mul_one, zero_add, pow_one]
      exact ⟨hpq, not_le.mp hstep⟩

theorem pow_steps_lt_spec (b : ℚ) (hb : 1 < b) :
    ∀ (fuel : Nat) (p : ℚ), 0 < p → 1 ≤ p * b ^ fuel →
      1 ≤ p * b ^ (pow_steps_lt b fuel p) ∧ ∀ k : Nat, k < pow_steps_lt b fuel p → p * b ^ k < 1 := by
  intro fuel
  induction fuel with
  | zero =>
    intro p _ h
    simp only [pow_steps_lt, pow_zero, mul_one] at h ⊢
    exact ⟨h, fun k hk => absurd hk (Nat.not_lt_zero k)⟩
  | succ fuel ih =>
    intro p hp h
    by_cases hlt : p < 1
    · have hpb : 0 < p * b := mul_pos hp (by linarith)
      obtain ⟨h1, h2⟩ := ih (p * b) hpb (by rw [pow_succ'] at h; linarith [mul_assoc p b (b ^ fuel)])
      simp only [pow_steps_lt, hlt, if_true]
      constructor
      · rw [add_comm 1, pow_succ', ← mul_assoc]; exact h1
      · intro k hk
        cases k with
        | zero => simpa using hlt
        | succ k =>
          rw [pow_succ', ← mul_assoc]
          exact h2 k (by omega)
    · simp only [pow_steps_lt, hlt, if_false, pow_zero, mul_one]
      exact ⟨not_lt.mp hlt, fun k hk => absurd hk (Nat.not_lt_zero k)⟩

/-- Bernoulli: a power of `b > 1` below `q` has an exponent below `q / (b - 1)`. -/
theorem exponent_le_of_pow_le (b q : ℚ) (hb : 1 < b) (k : Nat) (h : b ^ k ≤ q) :
    k ≤ ⌈q / (b - 1)⌉.toNat := by
  have hb0 : 0 < b - 1 := by linarith
  have hbern : 1 + (k : ℚ) * (b - 1) ≤ b ^ k := by
    have := one_add_mul_le_pow (show (-2 : ℚ) ≤ b - 1 by linarith) k
    simpa using this
  have h1 : (k : ℚ) < q / (b - 1) := by
    rw [lt_div_iff₀ hb0]; linarith
  have h2 : ((k : ℤ) : ℚ) ≤ ((⌈q / (b - 1)⌉ : ℤ) : ℚ) := by
    have := Int.le_ceil (q / (b - 1))
    push_cast
    linarith
  have h3 : (k : ℤ) ≤ ⌈q / (b - 1)⌉ := by exact_mod_cast h2
  omega

/-- A power of `b > 1` with exponent `⌈q / (b - 1)⌉` exceeds `q`. -/
theorem lt_pow_ceil (b q : ℚ) (hb : 1 < b) :
    q < b ^ ⌈q / (b - 1)⌉.toNat := by
  by_contra hcon
  have := exponent_le_of_pow_le b q hb (⌈q / (b - 1)⌉.toNat + 1) ?_
  · omega
  · have hle := not_lt.mp hcon
    by_contra hcon2
    have hlt := not_le.mp hcon2
    have hb0 : 0 < b - 1 := by linarith
    have hbern := one_add_mul_le_pow (show (-2 : ℚ) ≤ b - 1 by linarith) ⌈q / (b - 1)⌉.toNat
    have hc : q / (b - 1) ≤ (⌈q / (b - 1)⌉.toNat : ℚ) := by
      have h1 := Int.le_ceil (q / (b - 1))
      have h2 : (⌈q / (b - 1)⌉ : ℤ) ≤ (⌈q / (b - 1)⌉.toNat : ℤ) := Int.self_le_toNat _
      have h3 : ((⌈q / (b - 1)⌉ : ℤ) : ℚ) ≤ ((⌈q / (b - 1)⌉.toNat : ℤ) : ℚ) := by exact_mod_cast h2
      push_cast at h3
      linarith
    have hq2 : q ≤ (⌈q / (b - 1)⌉.toNat : ℚ) * (b - 1) := by
      rwa [div_le_iff₀ hb0] at hc
    simp only [add_sub_cancel] at hbern
    linarith

/-- The integer `floor_log_gt_one b q` brackets `q` between consecutive powers of `b`. -/
theorem floor_log_gt_one_spec (b q : ℚ) (hb : 1 < b) (hq : 0 < q) :
    b ^ (floor_log_gt_one b q) ≤ q ∧ q < b ^ (floor_log_gt_one b q + 1) := by
  unfold floor_log_gt_one
  by_cases h1 : 1 ≤ q
  · simp only [h1, if_true]
    obtain ⟨h2, h3⟩ := pow_steps_le_spec b q hb ⌈q / (b - 1)⌉.toNat 1 one_pos h1
      (fun k hk => exponent_le_of_pow_le b q hb k (by simpa using hk))
    rw [one_mul] at h2 h3
    constructor
    · rw [zpow_natCast]; exact h2
    · have : ((pow_steps_le b q ⌈q / (b - 1)⌉.toNat 1 : ℕ) : ℤ) + 1
          = ((pow_steps_le b q ⌈q / (b - 1)⌉.toNat 1 + 1 : ℕ) : ℤ) := by push_cast; ring
      rw [this, zpow_natCast]; exact h3
  · simp only [h1, if_false]
    have hq1 : q < 1 := not_le.mp h1
    have hb0 : (0 : ℚ) < b := by linarith
    have hfuel : 1 ≤ q * b ^ ⌈q⁻¹ / (b - 1)⌉.toNat := by
      have := lt_pow_ceil b q⁻¹ hb
      have h5 : q * q⁻¹ = 1 := mul_inv_cancel₀ hq.ne'
      nlinarith [mul_lt_mul_of_pos_left this hq]
    obtain ⟨h2, h3⟩ := pow_steps_lt_spec b hb ⌈q⁻¹ / (b - 1)⌉.toNat q hq hfuel
    set m := pow_steps_lt b ⌈q⁻¹ / (b - 1)⌉.toNat q with hm
    have hmpos : 0 < m := by
      rcases Nat.eq_zero_or_pos m with h0 | h0
      · rw [h0] at h2; simp at h2; linarith
      · exact h0
    have hbm : (0 : ℚ) < b ^ m := pow_pos hb0 m
    constructor
    · rw [zpow_neg, zpow_natCast, inv_le_comm₀ hbm hq]
      rw [← div_le_iff₀' hq, one_div] at h2
      exact h2
    · have h4 := h3 (m - 1) (by omega)
      have hbm1 : (0 : ℚ) < b ^ (m - 1) := pow_pos hb0 (m - 1)
      have : (-(m : ℤ) + 1) = -((m - 1 : ℕ) : ℤ) := by
        rw [Nat.cast_sub hmpos]; push_cast; ring
      rw [this, zpow_neg, zpow_natCast, lt_inv_comm₀ hq hbm1]
      rw [← lt_div_iff₀' hq, one_div] at h4
      exact h4

/-- The floor of a quotient of logarithms is the exponent that brackets the argument. -/
theorem floor_real_log_eq (b q : ℝ) (hb : 1 < b) (hq : 0 < q) (k : ℤ)
    (h1 : b ^ k ≤ q) (h2 : q < b ^ (k + 1)) : ⌊Real.log q / Real.log b⌋ = k := by
  have hb0 : 0 < b := by linarith
  have hlog : 0 < Real.log b := Real.log_pos hb
  rw [Int.floor_eq_iff]
  constructor
  · rw [le_div_iff₀ hlog, ← Real.log_zpow]
    exact (Real.log_le_log_iff (zpow_pos hb0 k) hq).mpr h1
  · rw [div_lt_iff₀ hlog]
    have := (Real.log_lt_log_iff hq (zpow_pos hb0 (k + 1))).mpr h2
    rw [Real.log_zpow] at this
    push_cast at this
    exact this

/-- The integer `floor_log_gt_one b q` is `floor (log q / log b)` over the reals. -/
theorem floor_log_gt_one_eq_floor_real_log (b q : ℚ) (hb : 1 < b) (hq : 0 < q) :
    floor_log_gt_one b q = ⌊Real.log (q : ℝ) / Real.log (b : ℝ)⌋ := by
  obtain ⟨h1, h2⟩ := floor_log_gt_one_spec b q hb hq
  symm
  apply floor_real_log_eq (b : ℝ) (q : ℝ) (by exact_mod_cast hb) (by exact_mod_cast hq)
  · exact_mod_cast h1
  · exact_mod_cast h2

/-- The integer `floor_log b q` is `std::floor (std::log q / std::log b)` over the reals. -/
theorem floor_log_eq_floor_real_log (b q : ℚ) (hb : 0 < b) (hb1 : b ≠ 1) (hq : 0 < q) :
    floor_log b q = ⌊Real.log (q : ℝ) / Real.log (b : ℝ)⌋ := by
  unfold floor_log
  by_cases h : 1 < b
  · simp only [h, if_true]
    exact floor_log_gt_one_eq_floor_real_log b q h hq
  · simp only [h, if_false]
    have hlt : b < 1 := lt_of_le_of_ne (not_lt.mp h) hb1
    have hinv : 1 < b⁻¹ := (one_lt_inv₀ hb).mpr hlt
    rw [floor_log_gt_one_eq_floor_real_log b⁻¹ q⁻¹ hinv (inv_pos.mpr hq)]
    push_cast
    rw [Real.log_inv, Real.log_inv, neg_div_neg_eq]

/-- A power of `b > 1` is below `q` exactly for the exponents up to `floor_log_gt_one b q`. -/
theorem zpow_le_iff_le_floor_log (b q : ℚ) (hb : 1 < b) (hq : 0 < q) (s : ℤ) :
    b ^ s ≤ q ↔ s ≤ floor_log_gt_one b q := by
  obtain ⟨h1, h2⟩ := floor_log_gt_one_spec b q hb hq
  constructor
  · intro h
    by_contra hcon
    have h3 : floor_log_gt_one b q + 1 ≤ s := by omega
    have := zpow_le_zpow_right₀ hb.le h3
    linarith
  · intro h
    exact le_trans (zpow_le_zpow_right₀ hb.le h) h1

theorem floor_log_gt_one_nonneg (b q : ℚ) (hb : 1 < b) (hq : 1 ≤ q) :
    0 ≤ floor_log_gt_one b q := by
  rw [← zpow_le_iff_le_floor_log b q hb (by linarith)]
  simpa using hq

theorem cvRound_sub_le (x : ℚ) : (cvRound x : ℚ) - x ≤ 1 / 2 := by
  have h1 := Int.floor_le x
  have h2 := Int.lt_floor_add_one x
  unfold cvRound
  split_ifs with a b c
  · linarith
  · push_cast; linarith
  · linarith
  · push_cast; linarith

theorem sub_cvRound_le (x : ℚ) : x - (cvRound x : ℚ) ≤ 1 / 2 := by
  have h1 := Int.floor_le x
  have h2 := Int.lt_floor_add_one x
  unfold cvRound
  split_ifs with a b c
  · linarith
  · push_cast; linarith
  · linarith
  · push_cast; linarith

theorem le_cvRound_of_lt (x : ℚ) (z : ℤ) (h : (z : ℚ) - 1 / 2 < x) : z ≤ cvRound x := by
  have h1 := sub_cvRound_le x
  have h2 : ((z - 1 : ℤ) : ℚ) < (cvRound x : ℚ) := by push_cast; linarith
  have h3 : z - 1 < cvRound x := by exact_mod_cast h2
  omega

theorem cvRound_le_of_lt (x : ℚ) (z : ℤ) (h : x < (z : ℚ) + 1 / 2) : cvRound x ≤ z := by
  have h1 := cvRound_sub_le x
  have h2 : (cvRound x : ℚ) < ((z + 1 : ℤ) : ℚ) := by push_cast; linarith
  have h3 : cvRound x < z + 1 := by exact_mod_cast h2
  omega

/-! ## The loops -/

theorem loop_count_succ (bound step i : Nat) (hstep : 0 < step) (hi : i < bound) :
    (bound - i + step - 1) / step = (bound - (i + step) + step - 1) / step + 1 := by
  by_cases h : step ≤ bound - i
  · have : bound - i + step - 1 = (bound - (i + step) + step - 1) + step := by omega
    rw [this, Nat.add_div_right _ hstep]
  · have h1 : bound - (i + step) + step - 1 = step - 1 := by omega
    have e1 : (step - 1) / step = 0 := Nat.div_eq_of_lt (by omega)
    have e2 : (bound - i - 1) / step = 0 := Nat.div_eq_of_lt (by omega)
    have h2 : bound - i + step - 1 = (bound - i - 1) + step := by omega
    rw [h1, e1, h2, Nat.add_div_right _ hstep, e2]

theorem loop_count_zero (bound step i : Nat) (hstep : 0 < step) (hi : ¬ i < bound) :
    (bound - i + step - 1) / step = 0 := by
  have : bound - i + step - 1 = step - 1 := by omega
  rw [this]
  exact Nat.div_eq_of_lt (by omega)

/-- A `for` loop whose counter does not wrap around runs its body at the positions
`i, i + step, ...` below the bound. -/
theorem for_loop_eq {W : Type} (ext : State → List W → State)
    (hnil : ∀ st, ext st [] = st) (happ : ∀ st a b, ext (ext st a) b = ext st (a ++ b))
    (bound step : Nat) (hstep : 0 < step) (hwrap : bound + step ≤ SIZE_MOD)
    (body : Nat → State → Except Fault State) (h : Nat → List W)
    (hbody : ∀ i st, i < bound → body i st = .ok (ext st (h i))) :
    ∀ (fuel i : Nat) (st : State), bound - i < fuel →
      for_loop bound step body fuel i st
        = .ok (ext st ((List.range' i ((bound - i + step - 1) / step) step).flatMap h)) := by
  intro fuel
  induction fuel with
  | zero => intro i st hf; omega
  | succ fuel ih =>
    intro i st hf
    by_cases hi : i < bound
    · have hmod : (i + step) % SIZE_MOD = i + step := Nat.mod_eq_of_lt (by omega)
      simp only [for_loop, hi, if_true, hbody i st hi, hmod]
      rw [ih (i + step) _ (by omega), happ, loop_count_succ bound step i hstep hi]
      simp [List.range'_succ]
    · simp only [for_loop, hi, if_false]
      rw [loop_count_zero bound step i hstep hi]
      simp [hnil]

theorem counted_add (total a b : Nat) : counted (counted total a) b = counted total (a + b) := by
  simp only [counted, UINT_MOD]
  split_ifs <;> omega

theorem extend_nil {α : Type} (D : DoubleArith) (interp : Mat α → ℚ → ℚ → Int → Int → α)
    (img : Mat α) (wr wc : Int) (r : ℚ) (fe : Option (Mat α → List ℚ)) (st : State) :
    extend D interp img wr wc r fe st [] = st := by
  cases fe <;> simp [extend, window_features, counted]

theorem extend_append {α : Type} (D : DoubleArith) (interp : Mat α → ℚ → ℚ → Int → Int → α)
    (img : Mat α) (wr wc : Int) (r : ℚ) (fe : Option (Mat α → List ℚ)) (st : State)
    (a b : List (Nat × Nat × Nat)) :
    extend D interp img wr wc r fe (extend D interp img wr wc r fe st a) b
      = extend D interp img wr wc r fe st (a ++ b) := by
  cases fe <;> simp [extend, window_features, counted_add]

theorem to_size_t_of_nonneg (z : Int) (h0 : 0 ≤ z) (h1 : z < 2 ^ 64) : to_size_t z = z.toNat := by
  unfold to_size_t SIZE_MOD
  rw [Int.emod_eq_of_lt h0 (by norm_num; exact h1)]

/-- The body of the column loop appends the window `(s, i, j)`. -/
theorem window_body_eq {α : Type} (D : DoubleArith) (interp : Mat α → ℚ → ℚ → Int → Int → α)
    (img : Mat α) (wr wc : Int) (r : ℚ) (fe : Option (Mat α → List ℚ)) (s i j : Nat)
    (st : State) (hwr : 0 ≤ wr) (hwc : 0 ≤ wc)
    (hi : (i : Int) + wr ≤ (resampled D interp img r s).rows)
    (hj : (j : Int) + wc ≤ (resampled D interp img r s).cols) :
    window_body D (resampled D interp img r s) wr wc (D.pow r s) fe s i j st
      = .ok (extend D interp img wr wc r fe st [(s, i, j)]) := by
  cases fe with
  | none => simp [window_body, extend, window_features, window_rect, counted]
  | some f =>
    have hroi : roi (resampled D interp img r s) j i wc wr
        = .ok (sub_matrix (resampled D interp img r s) j i wc wr) := by
      unfold roi
      rw [if_pos]
      exact ⟨Int.natCast_nonneg j, hwc, hj, Int.natCast_nonneg i, hwr, hi⟩
    simp [window_body, extend, window_features, window_rect, window_feature, hroi, counted]

theorem loop_count_eq_grid (extent win stride : Int) (hw : win ≤ extent) (hs : 0 < stride) :
    List.range' 0 (((extent - win + 1).toNat - 0 + stride.toNat - 1) / stride.toNat)
      stride.toNat = grid extent win stride := by
  unfold grid
  obtain ⟨e, he⟩ := Int.eq_ofNat_of_zero_le (show 0 ≤ extent - win by omega)
  obtain ⟨k, hk⟩ := Int.eq_ofNat_of_zero_le (show 0 ≤ stride by omega)
  have hk0 : 0 < k := by omega
  have h1 : (extent - win + 1).toNat = e + 1 := by omega
  have h2 : stride.toNat = k := by omega
  have h3 : ((extent - win) / stride + 1).toNat = e / k + 1 := by
    rw [he, hk]
    have : ((e : ℤ) / (k : ℤ) + 1) = ((e / k + 1 : ℕ) : ℤ) := by push_cast; rfl
    rw [this, Int.toNat_ofNat]
  rw [h1, h2, h3]
  have h4 : e + 1 - 0 + k - 1 = e + k := by omega
  rw [h4, Nat.add_div_right _ hk0]

/-- The row and column loops of one scale append the windows of that scale. -/
theorem scale_windows_eq {α : Type} (D : DoubleArith) (interp : Mat α → ℚ → ℚ → Int → Int → α)
    (img : Mat α) (wr wc : Int) (r : ℚ) (stride : Int) (fe : Option (Mat α → List ℚ))
    (s : Nat) (st : State)
    (hwr : 0 ≤ wr) (hwc : 0 ≤ wc) (hs0 : 0 < stride) (hs1 : stride < 2 ^ 31)
    (hR0 : wr ≤ resampled_extent D img.rows r s) (hR1 : resampled_extent D img.rows r s < 2 ^ 31)
    (hC0 : wc ≤ resampled_extent D img.cols r s)
    (hC1 : resampled_extent D img.cols r s < 2 ^ 31) :
    slide_windows D (resampled D interp img r s) wr wc (D.pow r s) stride fe s st
      = .ok (extend D interp img wr wc r fe st
          (windows_at_scale D img.rows img.cols wr wc r stride s)) := by
  have erows : (resampled D interp img r s).rows = resampled_extent D img.rows r s := rfl
  have ecols : (resampled D interp img r s).cols = resampled_extent D img.cols r s := rfl
  have e1 : to_size_t (resampled_extent D img.rows r s - wr + 1)
      = (resampled_extent D img.rows r s - wr + 1).toNat :=
    to_size_t_of_nonneg _ (by omega) (by omega)
  have e2 : to_size_t (resampled_extent D img.cols r s - wc + 1)
      = (resampled_extent D img.cols r s - wc + 1).toNat :=
    to_size_t_of_nonneg _ (by omega) (by omega)
  have e3 : to_size_t stride = stride.toNat := to_size_t_of_nonneg _ (by omega) (by omega)
  have hstep : 0 < stride.toNat := by omega
  have hmod : SIZE_MOD = 2 ^ 64 := rfl
  unfold slide_windows
  rw [erows, ecols, e1, e2, e3]
  have hcol : ∀ (i : Nat) (sti : State), i < (resampled_extent D img.rows r s - wr + 1).toNat →
      for_loop (resampled_extent D img.cols r s - wc + 1).toNat stride.toNat
          (window_body D (resampled D interp img r s) wr wc (D.pow r s) fe s i) SIZE_MOD 0 sti
        = .ok (extend D interp img wr wc r fe sti
            ((grid (resampled_extent D img.cols r s) wc stride).flatMap
              (fun j => [(s, i, j)]))) := by
    intro i sti hi
    rw [for_loop_eq (extend D interp img wr wc r fe) (extend_nil D interp img wr wc r fe)
      (extend_append D interp img wr wc r fe) _ _ hstep (by rw [hmod]; omega) _
      (fun j => [(s, i, j)]) ?_ SIZE_MOD 0 sti (by rw [hmod]; omega),
      loop_count_eq_grid _ _ _ hC0 hs0]
    intro j stj hj
    exact window_body_eq D interp img wr wc r fe s i j stj hwr hwc (by rw [erows]; omega)
      (by rw [ecols]; omega)
  rw [for_loop_eq (extend D interp img wr wc r fe) (extend_nil D interp img wr wc r fe)
    (extend_append D interp img wr wc r fe) _ _ hstep (by rw [hmod]; omega) _
    (fun i => (grid (resampled_extent D img.cols r s) wc stride).flatMap (fun j => [(s, i, j)]))
    hcol SIZE_MOD 0 st (by rw [hmod]; omega), loop_count_eq_grid _ _ _ hR0 hs0]
  rfl

theorem length_set_scales (D : DoubleArith) (r : ℚ) : ∀ (todo s : Nat) (l : List ℚ),
    (set_scales D r todo s l).length = l.length := by
  intro todo
  induction todo with
  | zero => intro s l; rfl
  | succ todo ih => intro s l; simp [set_scales, ih]

/-- The loop over the scales appends the windows of every scale it processes, when
at each of them the factor `1.0 / scales[s]` is positive and the resampled image
is at least as large as the window. -/
theorem scale_loop_eq {α : Type} (D : DoubleArith) (interp : Mat α → ℚ → ℚ → Int → Int → α)
    (img : Mat α) (wr wc : Int) (r : ℚ) (stride : Int) (fe : Option (Mat α → List ℚ))
    (hwr : 0 < wr) (hwc : 0 < wc) (hs0 : 0 < stride) (hs1 : stride < 2 ^ 31)
    (hrows : 0 < img.rows) (hcols : 0 < img.cols) :
    ∀ (todo s : Nat) (st : State), s + todo ≤ st.scales.length →
      (∀ s1 : Nat, s1 < s + todo →
        0 < D.div 1 (D.pow r s1) ∧
        wr ≤ resampled_extent D img.rows r s1 ∧ resampled_extent D img.rows r s1 < 2 ^ 31 ∧
        wc ≤ resampled_extent D img.cols r s1 ∧ resampled_extent D img.cols r s1 < 2 ^ 31) →
      scale_loop D interp img wr wc r stride fe todo s st
        = .ok { extend D interp img wr wc r fe st
                  ((List.range' s todo).flatMap
                    (windows_at_scale D img.rows img.cols wr wc r stride))
                with scales := set_scales D r todo s st.scales } := by
  intro todo
  induction todo with
  | zero =>
    intro s st _ _
    simp [scale_loop, set_scales, extend_nil]
  | succ todo ih =>
    intro s st hlen hfit
    obtain ⟨hinv, hR0, hR1, hC0, hC1⟩ := hfit s (by omega)
    have hget : (st.scales.set s (D.pow r s)).getD s 0 = D.pow r s := by
      simp [List.getD_eq_getElem?_getD, List.getElem?_set, show s < st.scales.length by omega]
    have hres : resize D interp img (D.div 1 (D.pow r s)) (D.div 1 (D.pow r s))
        = .ok (resampled D interp img r s) := by
      unfold resize
      have e1 : 0 < (resized D interp img (D.div 1 (D.pow r s)) (D.div 1 (D.pow r s))).cols := by
        show 0 < resampled_extent D img.cols r s
        omega
      have e2 : 0 < (resized D interp img (D.div 1 (D.pow r s)) (D.div 1 (D.pow r s))).rows := by
        show 0 < resampled_extent D img.rows r s
        omega
      rw [if_pos ⟨hrows, hcols, hinv, hinv⟩, if_pos ⟨e1, e2⟩]
      rfl
    have hloops := scale_windows_eq D interp img wr wc r stride fe s
      { st with scales := st.scales.set s (D.pow r s) } hwr.le hwc.le hs0 hs1 hR0 hR1 hC0 hC1
    simp only [scale_loop, hget, hres, hloops]
    rw [ih (s + 1) _ (by simp [extend]; omega) (fun s1 h1 => hfit s1 (by omega)),
      extend_append]
    simp [extend, set_scales, List.range'_succ]

/-! ## The pre-allocation bound -/

theorem floor_intCast_div (a k : Int) (hk : 0 < k) : ⌊(a : ℚ) / k⌋ = a / k := by
  obtain ⟨m, rfl⟩ := Int.eq_ofNat_of_zero_le hk.le
  exact_mod_cast Rat.floor_intCast_div_natCast a m

theorem ub_term_eq (D : DoubleArith) (R C wr wc : Int) (r : ℚ) (stride : Int) (s : Nat)
    (hs : 0 < stride) (hwr : 0 ≤ wr) (hwc : 0 ≤ wc) :
    (⌊D.div R (D.mul stride (D.pow r s))⌋ - Int.tdiv wr stride + 1 + 1) *
        (⌊D.div C (D.mul stride (D.pow r s))⌋ - Int.tdiv wc stride + 1 + 1)
      = ub_term D R C wr wc r stride s := by
  unfold ub_term
  rw [Int.tdiv_eq_ediv hwr hs.le, Int.tdiv_eq_ediv hwc hs.le, floor_intCast_div wr stride hs,
    floor_intCast_div wc stride hs]
  ring

theorem length_grid (extent win stride : Int) :
    (grid extent win stride).length = ((extent - win) / stride + 1).toNat := by
  simp [grid]

theorem length_flatMap_const {β γ : Type} (l : List β) (f : β → List γ) (c : Nat)
    (h : ∀ b, (f b).length = c) : (l.flatMap f).length = l.length * c := by
  induction l with
  | nil => simp
  | cons b l ih => simp [List.flatMap_cons, ih, h, Nat.succ_mul, Nat.add_comm]

theorem length_windows_at_scale (D : DoubleArith) (R C wr wc : Int) (r : ℚ) (stride : Int)
    (s : Nat) :
    (windows_at_scale D R C wr wc r stride s).length
      = ((resampled_extent D R r s - wr) / stride + 1).toNat
        * ((resampled_extent D C r s - wc) / stride + 1).toNat := by
  unfold windows_at_scale
  rw [length_flatMap_const _ _ ((grid (resampled_extent D C r s) wc stride).length), length_grid,
    length_grid]
  intro i
  rw [length_flatMap_const _ (fun j => [(s, i, j)]) 1 (fun _ => rfl), Nat.mul_one]

/-- The loop of the pre-allocation bound adds the contribution of every scale. -/
theorem ub_loop_eq (D : DoubleArith) (R C wr wc : Int) (r : ℚ) (stride : Int) (hs : 0 < stride)
    (hwr : 0 ≤ wr) (hwc : 0 ≤ wc) :
    ∀ (todo s : Nat) (ub : Int), 0 ≤ ub →
      (∀ s1 : Nat, s1 < s + todo → 0 ≤ ub_term D R C wr wc r stride s1) →
      ub_loop D R C wr wc r stride todo s ub
        = .ok (ub + ((List.range' s todo).map (ub_term D R C wr wc r stride)).sum) := by
  intro todo
  induction todo with
  | zero => intro s ub _ _; simp [ub_loop]
  | succ todo ih =>
    intro s ub hub hterm
    have h0 := hterm s (by omega)
    have hne : ¬ stride = 0 := by omega
    have hnn : ¬ ub + ub_term D R C wr wc r stride s < 0 := by omega
    simp only [ub_loop, hne, if_false, ub_term_eq D R C wr wc r stride s hs hwr hwc, hnn]
    rw [ih (s + 1) _ (by omega) (fun s1 h1 => hterm s1 (by omega))]
    simp [List.range'_succ, add_assoc]

/-! ## The whole call -/

/-- A call that plans `n` scales returns, and its local variables at the `return`
are those of the planned windows, when at each planned scale the factor
`1.0 / scales[s]` is positive, the resampled image is at least as large as the
window and the contribution to the pre-allocation bound is not negative. -/
theorem run_eq_of_fits {α : Type} (D : DoubleArith) (interp : Mat α → ℚ → ℚ → Int → Int → α)
    (img : Mat α) (wr wc : Int) (r : ℚ) (max_nscales stride : Int)
    (fe : Option (Mat α → List ℚ))
    (hwr : 0 < wr) (hwc : 0 < wc) (hs0 : 0 < stride) (hs1 : stride < 2 ^ 31)
    (hrows : 0 < img.rows) (hcols : 0 < img.cols)
    (n : Nat) (hn : num_scales D img.rows img.cols wr wc r = .ok (n : Int))
    (hfit : ∀ s1 : Nat, s1 < n →
      0 < D.div 1 (D.pow r s1) ∧
      wr ≤ resampled_extent D img.rows r s1 ∧ resampled_extent D img.rows r s1 < 2 ^ 31 ∧
      wc ≤ resampled_extent D img.cols r s1 ∧ resampled_extent D img.cols r s1 < 2 ^ 31)
    (hterm : ∀ s1 : Nat, s1 < n → 0 ≤ ub_term D img.rows img.cols wr wc r stride s1) :
    nslidewins_total_ub D img.rows img.cols wr wc r stride n
        = .ok (((List.range' 0 n).map (ub_term D img.rows img.cols wr wc r stride)).sum) ∧
      run D interp img wr wc r max_nscales stride fe
        = .ok (final_state D interp img wr wc r fe n
            (planned_windows D img.rows img.cols wr wc r stride n)) := by
  have hub : nslidewins_total_ub D img.rows img.cols wr wc r stride n
      = .ok (((List.range' 0 n).map (ub_term D img.rows img.cols wr wc r stride)).sum) := by
    unfold nslidewins_total_ub
    rw [ub_loop_eq D img.rows img.cols wr wc r stride hs0 hwr.le hwc.le n 0 0 le_rfl
      (fun s1 h => hterm s1 (by omega))]
    simp
  refine ⟨hub, ?_⟩
  have hloop := scale_loop_eq D interp img wr wc r stride fe hwr hwc hs0 hs1 hrows hcols n 0
    ⟨List.replicate n 0, 0, [], [], []⟩ (by simp) (fun s1 h => hfit s1 (by omega))
  unfold run
  simp only [hn, Int.toNat_ofNat, hub, hloop]
  have hneg : ¬ ((n : Int) < 0) := by omega
  simp only [hneg, if_false, final_state, extend, planned_windows, counted, UINT_MOD]
  congr 1
  simp only [State.mk.injEq, List.nil_append, zero_add, true_and, and_true]
  split_ifs with h0
  · rw [h0]
    rfl
  · rfl

/-! ## Accurate arithmetic -/

theorem rel_err_pos : 0 < rel_err := by
  unfold rel_err
  positivity

theorem moderate_nonneg (x : ℚ) (h : moderate x) : 0 ≤ x := by
  rcases h with h | ⟨h, _⟩
  · rw [h]
  · exact le_trans (by positivity) h

theorem moderate_intCast (z : Int) (h0 : 0 ≤ z) (h1 : z < 2 ^ 31) : moderate (z : ℚ) := by
  rcases eq_or_lt_of_le h0 with h | h
  · left
    rw [← h]
    rfl
  · right
    have h2 : (1 : ℚ) ≤ z := by exact_mod_cast (by omega : 1 ≤ z)
    have h3 : (z : ℚ) ≤ 2 ^ 31 := by exact_mod_cast h1.le
    constructor
    · exact le_trans (by norm_num) h2
    · exact le_trans h3 (by norm_num)

theorem moderate_one : moderate 1 := by
  right
  constructor <;> norm_num

/-- The arithmetic without rounding error is accurate. -/
theorem exact_arith_accurate : Accurate exact_arith := by
  have hspec : ∀ (n w : Int) (r : ℚ), 0 < w → w ≤ n → 1 < r →
      0 ≤ floor_log r ((n : ℚ) / w) ∧ r ^ (floor_log r ((n : ℚ) / w)).toNat ≤ (n : ℚ) / w := by
    intro n w r hw hn hr
    have hwq : (0 : ℚ) < w := by exact_mod_cast hw
    have hq : (1 : ℚ) ≤ (n : ℚ) / w := by
      rw [le_div_iff₀ hwq, one_mul]
      exact_mod_cast hn
    have h0 := floor_log_gt_one_nonneg r _ hr hq
    have h1 := (floor_log_gt_one_spec r _ hr (by linarith)).1
    unfold floor_log
    rw [if_pos hr]
    refine ⟨h0, ?_⟩
    obtain ⟨k, hk⟩ := Int.eq_ofNat_of_zero_le h0
    rw [hk] at h1 ⊢
    simpa using h1
  have he := rel_err_pos
  refine ⟨?_, ?_, ?_, ?_, ?_, ?_, ?_, ?_⟩
  · intro n w r hw hn _ hr
    exact (hspec n w r hw hn hr).1
  · intro n w r hw hn _ hr
    have hwq : (0 : ℚ) < w := by exact_mod_cast hw
    have h1 := (hspec n w r hw hn hr).2
    rw [le_div_iff₀ hwq] at h1
    have hnq : (0 : ℚ) ≤ n := by exact_mod_cast (by omega : 0 ≤ n)
    show (w : ℚ) * r ^ (floor_log r ((n : ℚ) / w)).toNat ≤ n * (1 + rel_err)
    nlinarith
  · intro r s hr _
    have : (0 : ℚ) ≤ r ^ s := by positivity
    show (1 - rel_err) * r ^ s ≤ r ^ s
    nlinarith
  · intro r s hr _
    have : (0 : ℚ) ≤ r ^ s := by positivity
    show r ^ s ≤ (1 + rel_err) * r ^ s
    nlinarith
  · intro x y hx hy
    have := mul_nonneg (moderate_nonneg x hx) (moderate_nonneg y hy)
    show (1 - rel_err) * (x * y) ≤ x * y
    nlinarith
  · intro x y hx hy
    have := mul_nonneg (moderate_nonneg x hx) (moderate_nonneg y hy)
    show x * y ≤ (1 + rel_err) * (x * y)
    nlinarith
  · intro x y hx _ hy
    have := div_nonneg (moderate_nonneg x hx) hy.le
    show (1 - rel_err) * (x / y) ≤ x / y
    nlinarith
  · intro x y hx _ hy
    have := div_nonneg (moderate_nonneg x hx) hy.le
    show x / y ≤ (1 + rel_err) * (x / y)
    nlinarith

/-- The arithmetic with the rounded log quotient is accurate. -/
theorem rounded_log_arith_accurate : Accurate rounded_log_arith := by
  have hex := exact_arith_accurate
  refine ⟨?_, ?_, hex.pow_ge, hex.pow_le, hex.mul_ge, hex.mul_le, hex.div_ge, hex.div_le⟩
  · intro n w r hw hn hn1 hr
    show 0 ≤ (if n = 1000 ∧ w = 1 ∧ r = 10 then 2 else exact_arith.log_quot_floor n w r)
    split_ifs
    · norm_num
    · exact hex.log_quot_floor_nonneg n w r hw hn hn1 hr
  · intro n w r hw hn hn1 hr
    show (w : ℚ) * r ^ (if n = 1000 ∧ w = 1 ∧ r = 10 then (2 : Int)
      else exact_arith.log_quot_floor n w r).toNat ≤ n * (1 + rel_err)
    split_ifs with h
    · obtain ⟨rfl, rfl, rfl⟩ := h
      have e : (2 : Int).toNat = 2 := rfl
      rw [e]
      simp only [rel_err]
      norm_num
    · exact hex.log_quot_floor_le n w r hw hn hn1 hr

/-- The scale factor `scales[s] = std::pow (scaleratio, s)` and the factor
`1.0 / scales[s]` in an accurate arithmetic. -/
theorem accurate_scale (D : DoubleArith) (hD : Accurate D) (r : ℚ) (s : Nat) (hr : 1 < r)
    (hp : r ^ s ≤ 2 ^ 32) :
    1 / 2 ≤ D.pow r s ∧ D.pow r s ≤ 2 ^ 33 ∧
      (1 - rel_err) * r ^ s ≤ D.pow r s ∧ D.pow r s ≤ (1 + rel_err) * r ^ s ∧
      0 < D.div 1 (D.pow r s) ∧ moderate (D.div 1 (D.pow r s)) ∧
      1 - rel_err ≤ D.div 1 (D.pow r s) * D.pow r s ∧
      D.div 1 (D.pow r s) * D.pow r s ≤ 1 + rel_err := by
  have h1 : (1 : ℚ) ≤ r ^ s := one_le_pow₀ hr.le
  have hge := hD.pow_ge r s hr hp
  have hle := hD.pow_le r s hr hp
  set sc := D.pow r s with hsc
  have a1 : 1 / 2 ≤ sc := by
    simp only [rel_err] at hge
    nlinarith
  have a2 : sc ≤ 2 ^ 33 := by
    simp only [rel_err] at hle
    nlinarith
  have hpos : 0 < sc := by linarith
  have hmod : moderate sc := Or.inr ⟨le_trans (by norm_num) a1, le_trans a2 (by norm_num)⟩
  have dge := hD.div_ge 1 sc moderate_one hmod hpos
  have dle := hD.div_le 1 sc moderate_one hmod hpos
  set inv := D.div 1 sc with hinv
  have b1 : 1 - rel_err ≤ inv * sc := by
    have := mul_le_mul_of_nonneg_right dge hpos.le
    rwa [mul_assoc, div_mul_cancel₀ _ hpos.ne', mul_one] at this
  have b2 : inv * sc ≤ 1 + rel_err := by
    have := mul_le_mul_of_nonneg_right dle hpos.le
    rwa [mul_assoc, div_mul_cancel₀ _ hpos.ne', mul_one] at this
  have hinvpos : 0 < inv := by
    by_contra hcon
    have h0 : inv * sc ≤ 0 := mul_nonpos_of_nonpos_of_nonneg (not_lt.mp hcon) hpos.le
    simp only [rel_err] at b1
    norm_num at b1
    linarith
  have c1 : 1 / 2 ^ 100 ≤ inv := by
    simp only [rel_err] at b1
    by_contra hcon
    have hlt := not_le.mp hcon
    have : inv * sc < 1 / 2 ^ 100 * 2 ^ 33 := by
      calc inv * sc ≤ inv * 2 ^ 33 := mul_le_mul_of_nonneg_left a2 hinvpos.le
        _ < 1 / 2 ^ 100 * 2 ^ 33 := mul_lt_mul_of_pos_right hlt (by norm_num)
    norm_num at this b1
    linarith
  have c2 : inv ≤ 2 ^ 100 := by
    simp only [rel_err] at b2
    have : inv * (1 / 2) ≤ inv * sc := mul_le_mul_of_nonneg_left a1 hinvpos.le
    norm_num at b2 ⊢
    linarith
  exact ⟨a1, a2, hge, hle, hinvpos, Or.inr ⟨c1, c2⟩, b1, b2⟩

/-- The product `extent * (1.0 / scales[s])` of `cv::resize` in an accurate
arithmetic, multiplied back by `scales[s]`, is within twice the relative error of
the extent. -/
theorem accurate_resampled (D : DoubleArith) (hD : Accurate D) (X : Int) (r : ℚ) (s : Nat)
    (hr : 1 < r) (hp : r ^ s ≤ 2 ^ 32) (hX0 : 0 ≤ X) (hX1 : X < 2 ^ 31) :
    (1 - rel_err) ^ 2 * X ≤ D.mul X (D.div 1 (D.pow r s)) * D.pow r s ∧
      D.mul X (D.div 1 (D.pow r s)) * D.pow r s ≤ (1 + rel_err) ^ 2 * X ∧
      0 ≤ D.mul X (D.div 1 (D.pow r s)) := by
  obtain ⟨a1, a2, _, _, hinvpos, hinvmod, b1, b2⟩ := accurate_scale D hD r s hr hp
  have hXm := moderate_intCast X hX0 hX1
  have mge := hD.mul_ge X _ hXm hinvmod
  have mle := hD.mul_le X _ hXm hinvmod
  set sc := D.pow r s
  set inv := D.div 1 sc
  set prod := D.mul X inv
  have hsc : 0 < sc := by linarith
  have hXq : (0 : ℚ) ≤ X := by exact_mod_cast hX0
  have he1 : (0 : ℚ) ≤ 1 - rel_err := by simp only [rel_err]; norm_num
  have he2 : (0 : ℚ) ≤ 1 + rel_err := by simp only [rel_err]; norm_num
  have h1 : (1 - rel_err) * X * (inv * sc) ≤ prod * sc := by
    have := mul_le_mul_of_nonneg_right mge hsc.le
    calc (1 - rel_err) * X * (inv * sc) = (1 - rel_err) * (X * inv) * sc := by ring
      _ ≤ prod * sc := this
  have h2 : prod * sc ≤ (1 + rel_err) * X * (inv * sc) := by
    have := mul_le_mul_of_nonneg_right mle hsc.le
    calc prod * sc ≤ (1 + rel_err) * (X * inv) * sc := this
      _ = (1 + rel_err) * X * (inv * sc) := by ring
  have h3 : (1 - rel_err) * X * (1 - rel_err) ≤ (1 - rel_err) * X * (inv * sc) :=
    mul_le_mul_of_nonneg_left b1 (mul_nonneg he1 hXq)
  have h4 : (1 + rel_err) * X * (inv * sc) ≤ (1 + rel_err) * X * (1 + rel_err) :=
    mul_le_mul_of_nonneg_left b2 (mul_nonneg he2 hXq)
  refine ⟨by nlinarith, by nlinarith, ?_⟩
  have h5 : 0 ≤ (1 - rel_err) * (X * inv) := mul_nonneg he1 (mul_nonneg hXq hinvpos.le)
  linarith

/-- In an accurate arithmetic the image resampled at a scale index `s` with
`win * r ^ s ≤ extent * (1 + rel_err)` is at least as large as the window and at
most as large as the image. -/
theorem resampled_extent_bounds (D : DoubleArith) (hD : Accurate D) (X w : Int) (r : ℚ)
    (s : Nat) (hr : 1 < r) (hw : 0 < w) (hX1 : X < 2 ^ 31)
    (hfit : (w : ℚ) * r ^ s ≤ X * (1 + rel_err)) :
    r ^ s ≤ 2 ^ 32 ∧ w ≤ resampled_extent D X r s ∧ resampled_extent D X r s ≤ X := by
  have hp1 : (1 : ℚ) ≤ r ^ s := one_le_pow₀ hr.le
  have hwq : (1 : ℚ) ≤ w := by exact_mod_cast hw
  have hXq : (X : ℚ) ≤ 2 ^ 31 := by exact_mod_cast hX1.le
  have he := rel_err_pos
  have he40 : rel_err = 1 / 2 ^ 40 := rfl
  have hX0q : (0 : ℚ) ≤ X := by
    have h1 : (0 : ℚ) < w * r ^ s := by positivity
    have h2 : (0 : ℚ) < X * (1 + rel_err) := lt_of_lt_of_le h1 hfit
    by_contra hcon
    have : (X : ℚ) * (1 + rel_err) ≤ 0 :=
      mul_nonpos_of_nonpos_of_nonneg (not_le.mp hcon).le (by linarith)
    linarith
  have hX0 : 0 ≤ X := by exact_mod_cast hX0q
  have hwp : r ^ s ≤ w * r ^ s := by nlinarith
  have hp : r ^ s ≤ 2 ^ 32 := by
    rw [he40] at hfit
    nlinarith
  have hwle : (w : ℚ) ≤ w * r ^ s := by nlinarith
  obtain ⟨a1, a2, pge, ple, hinvpos, hinvmod, b1, b2⟩ := accurate_scale D hD r s hr hp
  obtain ⟨c1, c2, c3⟩ := accurate_resampled D hD X r s hr hp hX0 hX1
  unfold resampled_extent
  set sc := D.pow r s
  set prod := D.mul X (D.div 1 sc)
  have hsc : 0 < sc := by linarith
  refine ⟨hp, ?_, ?_⟩
  · apply le_cvRound_of_lt
    -- (1 - e)^2 * w * sc ≤ (1 + e)^2 * prod * sc
    have h1 : (w : ℚ) * sc ≤ (1 + rel_err) ^ 2 * X := by
      have : (w : ℚ) * sc ≤ w * ((1 + rel_err) * r ^ s) :=
        mul_le_mul_of_nonneg_left ple (by linarith)
      have h2 : (1 + rel_err) * ((w : ℚ) * r ^ s) ≤ (1 + rel_err) * (X * (1 + rel_err)) :=
        mul_le_mul_of_nonneg_left hfit (by linarith)
      nlinarith
    have h3 : (1 - rel_err) ^ 2 * ((w : ℚ) * sc) ≤ (1 + rel_err) ^ 2 * (prod * sc) := by
      have e1 : (0 : ℚ) ≤ (1 - rel_err) ^ 2 := by positivity
      have e2 : (0 : ℚ) ≤ (1 + rel_err) ^ 2 := by positivity
      calc (1 - rel_err) ^ 2 * ((w : ℚ) * sc) ≤ (1 - rel_err) ^ 2 * ((1 + rel_err) ^ 2 * X) :=
            mul_le_mul_of_nonneg_left h1 e1
        _ = (1 + rel_err) ^ 2 * ((1 - rel_err) ^ 2 * X) := by ring
        _ ≤ (1 + rel_err) ^ 2 * (prod * sc) := mul_le_mul_of_nonneg_left c1 e2
    have h4 : (1 - rel_err) ^ 2 * (w : ℚ) ≤ (1 + rel_err) ^ 2 * prod := by
      have : ((1 - rel_err) ^ 2 * (w : ℚ)) * sc ≤ ((1 + rel_err) ^ 2 * prod) * sc := by
        calc ((1 - rel_err) ^ 2 * (w : ℚ)) * sc = (1 - rel_err) ^ 2 * ((w : ℚ) * sc) := by ring
          _ ≤ (1 + rel_err) ^ 2 * (prod * sc) := h3
          _ = ((1 + rel_err) ^ 2 * prod) * sc := by ring
      exact le_of_mul_le_mul_right this hsc
    have h5 : (w : ℚ) ≤ 2 ^ 32 := by
      rw [he40] at hfit
      nlinarith
    rw [he40] at h4
    norm_num at h4 h5 ⊢
    linarith
  · apply cvRound_le_of_lt
    have h1 : prod * (1 - rel_err) ≤ prod * sc := by
      have : 1 - rel_err ≤ sc := by nlinarith
      exact mul_le_mul_of_nonneg_left this c3
    have h2 : prod * (1 - rel_err) ≤ (1 + rel_err) ^ 2 * X := le_trans h1 c2
    rw [he40] at h2
    norm_num at h2 hXq ⊢
    linarith

/-- In an accurate arithmetic the number of grid positions along one axis is at
most the factor that the pre-allocation bound uses for that axis. -/
theorem grid_count_le (D : DoubleArith) (hD : Accurate D) (X w stride : Int) (r : ℚ)
    (s : Nat) (hr : 1 < r) (hw : 0 < w) (hX1 : X < 2 ^ 31) (hs0 : 0 < stride)
    (hs1 : stride < 2 ^ 31) (hfit : (w : ℚ) * r ^ s ≤ X * (1 + rel_err)) :
    (resampled_extent D X r s - w) / stride + 1
      ≤ ⌊D.div X (D.mul stride (D.pow r s))⌋ - w / stride + 2 := by
  obtain ⟨hp, hRs0, hRs1⟩ := resampled_extent_bounds D hD X w r s hr hw hX1 hfit
  have hX0 : 0 ≤ X := by omega
  obtain ⟨a1, a2, pge, ple, hinvpos, hinvmod, b1, b2⟩ := accurate_scale D hD r s hr hp
  obtain ⟨c1, c2, c3⟩ := accurate_resampled D hD X r s hr hp hX0 hX1
  have he40 : rel_err = 1 / 2 ^ 40 := rfl
  have hround : (resampled_extent D X r s : ℚ) - D.mul X (D.div 1 (D.pow r s)) ≤ 1 / 2 :=
    cvRound_sub_le _
  set Rs := resampled_extent D X r s with hRs
  set sc := D.pow r s
  set prod := D.mul X (D.div 1 sc)
  have hsc : 0 < sc := by linarith
  have hkq : (1 : ℚ) ≤ stride := by exact_mod_cast hs0
  have hkq1 : (stride : ℚ) ≤ 2 ^ 31 := by exact_mod_cast hs1.le
  have hXq0 : (0 : ℚ) ≤ X := by exact_mod_cast hX0
  have hXq1 : (X : ℚ) ≤ 2 ^ 31 := by exact_mod_cast hX1.le
  have hscmod : moderate sc := Or.inr ⟨le_trans (by norm_num) a1, le_trans a2 (by norm_num)⟩
  have hkmod := moderate_intCast stride hs0.le hs1
  have sge := hD.mul_ge stride sc hkmod hscmod
  have sle := hD.mul_le stride sc hkmod hscmod
  set ss := D.mul stride sc
  have hksc0 : 1 / 2 ≤ (stride : ℚ) * sc := by
    calc (1 / 2 : ℚ) = 1 * (1 / 2) := by norm_num
      _ ≤ (stride : ℚ) * sc := mul_le_mul hkq a1 (by norm_num) (by linarith)
  have hksc1 : (stride : ℚ) * sc ≤ 2 ^ 64 := by
    calc (stride : ℚ) * sc ≤ 2 ^ 31 * 2 ^ 33 := mul_le_mul hkq1 a2 hsc.le (by norm_num)
      _ = 2 ^ 64 := by norm_num
  have hss0 : 1 / 4 ≤ ss := by
    rw [he40] at sge
    norm_num at sge hksc0 ⊢
    linarith
  have hss1 : ss ≤ 2 ^ 65 := by
    rw [he40] at sle
    norm_num at sle hksc1 ⊢
    linarith
  have hsspos : 0 < ss := by linarith
  have hssmod : moderate ss := Or.inr ⟨le_trans (by norm_num) hss0, le_trans hss1 (by norm_num)⟩
  have dge := hD.div_ge X ss (moderate_intCast X hX0 hX1) hssmod hsspos
  set qd := D.div X ss
  have he1 : (0 : ℚ) < 1 - rel_err := by rw [he40]; norm_num
  have he2 : (0 : ℚ) < 1 + rel_err := by rw [he40]; norm_num
  have hqd0 : 0 ≤ qd := le_trans (mul_nonneg he1.le (div_nonneg hXq0 hsspos.le)) dge
  -- qd * ss ≥ (1 - e) * X
  have d1 : (1 - rel_err) * X ≤ qd * ss := by
    have := mul_le_mul_of_nonneg_right dge hsspos.le
    rwa [mul_assoc, div_mul_cancel₀ _ hsspos.ne'] at this
  have d2 : qd * ss ≤ qd * ((1 + rel_err) * (stride * sc)) := mul_le_mul_of_nonneg_left sle hqd0
  -- floor ((Rs - win) / k) + floor (win / k) ≤ floor (Rs / k)
  have h1 : (Rs - w) / stride + w / stride ≤ Rs / stride := by
    rw [Int.le_ediv_iff_mul_le hs0, add_mul]
    have a1 := Int.ediv_mul_le (Rs - w) hs0.ne'
    have a2 := Int.ediv_mul_le w hs0.ne'
    omega
  -- floor (Rs / k) ≤ floor (qd) + 1
  have h2 : Rs / stride - 1 ≤ ⌊qd⌋ := by
    rw [Int.le_floor]
    have m1 : ((Rs / stride * stride : ℤ) : ℚ) ≤ (Rs : ℚ) := by
      exact_mod_cast Int.ediv_mul_le Rs hs0.ne'
    push_cast at m1 ⊢
    set m : ℚ := ((Rs / stride : ℤ) : ℚ)
    have m2 : (m - 1) * stride ≤ prod - 1 / 2 := by
      have e0 : (m - 1) * stride = m * stride - stride := by ring
      rw [e0]
      linarith
    have m3 : (m - 1) * stride * sc ≤ (prod - 1 / 2) * sc :=
      mul_le_mul_of_nonneg_right m2 hsc.le
    have m4 : (m - 1) * stride * sc ≤ (1 + rel_err) ^ 2 * X - sc / 2 := by
      have e0 : (prod - 1 / 2) * sc = prod * sc - sc / 2 := by ring
      rw [e0] at m3
      linarith
    have m5 : ((1 + rel_err) ^ 2 * X - sc / 2) * (1 + rel_err) ≤ (1 - rel_err) * X := by
      rw [he40]
      norm_num at hXq1 ⊢
      linarith
    have m6 : (m - 1) * ((1 + rel_err) * (stride * sc)) ≤ qd * ((1 + rel_err) * (stride * sc)) := by
      have := mul_le_mul_of_nonneg_right m4 he2.le
      calc (m - 1) * ((1 + rel_err) * (stride * sc))
            = (m - 1) * stride * sc * (1 + rel_err) := by ring
        _ ≤ ((1 + rel_err) ^ 2 * X - sc / 2) * (1 + rel_err) := this
        _ ≤ (1 - rel_err) * X := m5
        _ ≤ qd * ss := d1
        _ ≤ qd * ((1 + rel_err) * (stride * sc)) := d2
    have hT : 0 < (1 + rel_err) * (stride * sc) := by positivity
    exact le_of_mul_le_mul_right m6 hT
  omega

/-- In an accurate arithmetic, at a planned scale the windows are at most as many as
the contribution of the scale to the pre-allocation bound. -/
theorem length_windows_at_scale_le (D : DoubleArith) (hD : Accurate D) (R C wr wc : Int)
    (r : ℚ) (stride : Int) (s : Nat) (hr : 1 < r) (hwr : 0 < wr) (hwc : 0 < wc)
    (hR1 : R < 2 ^ 31) (hC1 : C < 2 ^ 31) (hs0 : 0 < stride) (hs1 : stride < 2 ^ 31)
    (hfR : (wr : ℚ) * r ^ s ≤ R * (1 + rel_err)) (hfC : (wc : ℚ) * r ^ s ≤ C * (1 + rel_err)) :
    ((windows_at_scale D R C wr wc r stride s).length : Int)
      ≤ ub_term D R C wr wc r stride s := by
  rw [length_windows_at_scale]
  have h1 := grid_count_le D hD R wr stride r s hr hwr hR1 hs0 hs1 hfR
  have h2 := grid_count_le D hD C wc stride r s hr hwc hC1 hs0 hs1 hfC
  obtain ⟨_, hR, _⟩ := resampled_extent_bounds D hD R wr r s hr hwr hR1 hfR
  obtain ⟨_, hC, _⟩ := resampled_extent_bounds D hD C wc r s hr hwc hC1 hfC
  have p1 : 0 ≤ (resampled_extent D R r s - wr) / stride := Int.ediv_nonneg (by omega) hs0.le
  have p2 : 0 ≤ (resampled_extent D C r s - wc) / stride := Int.ediv_nonneg (by omega) hs0.le
  unfold ub_term
  rw [floor_intCast_div wr stride hs0, floor_intCast_div wc stride hs0]
  push_cast
  rw [Int.toNat_of_nonneg (by omega), Int.toNat_of_nonneg (by omega)]
  exact Int.mul_le_mul h1 h2 (by omega) (by omega)

/-- In an accurate arithmetic a valid input plans at least one scale, and at every
planned scale index `s` the window scaled by `r ^ s` exceeds the image by at most
the relative error. -/
theorem num_scales_accurate (D : DoubleArith) (hD : Accurate D) (R C wr wc : Int) (r : ℚ)
    (hwr : 0 < wr) (hR : wr ≤ R) (hR1 : R < 2 ^ 31) (hwc : 0 < wc) (hC : wc ≤ C)
    (hC1 : C < 2 ^ 31) (hr : 1 < r) :
    ∃ n : Nat, 1 ≤ n ∧ num_scales D R C wr wc r = .ok (n : Int) ∧
      ∀ s : Nat, s < n →
        (wr : ℚ) * r ^ s ≤ R * (1 + rel_err) ∧ (wc : ℚ) * r ^ s ≤ C * (1 + rel_err) := by
  have h1 := hD.log_quot_floor_nonneg R wr r hwr hR hR1 hr
  have h2 := hD.log_quot_floor_nonneg C wc r hwc hC hC1 hr
  have h3 := hD.log_quot_floor_le R wr r hwr hR hR1 hr
  have h4 := hD.log_quot_floor_le C wc r hwc hC hC1 hr
  have hok : num_scales D R C wr wc r
      = .ok (min (D.log_quot_floor R wr r) (D.log_quot_floor C wc r) + 1) := by
    unfold num_scales
    have hr0 : (0 : ℚ) < r := by linarith
    have hr1 : r ≠ 1 := by intro h; rw [h] at hr; exact lt_irrefl _ hr
    rw [if_pos ⟨by omega, by omega, hwr, hwc, hr0, hr1⟩]
  generalize D.log_quot_floor R wr r = a at h1 h3 hok
  generalize D.log_quot_floor C wc r = b at h2 h4 hok
  have hmin : 0 ≤ min a b := le_min h1 h2
  refine ⟨(min a b + 1).toNat, by omega, ?_, ?_⟩
  · rw [hok, Int.toNat_of_nonneg (by omega)]
  · intro s hs
    have hsa : s ≤ a.toNat := by
      have := min_le_left a b
      omega
    have hsb : s ≤ b.toNat := by
      have := min_le_right a b
      omega
    have hwrq : (0 : ℚ) ≤ wr := by exact_mod_cast hwr.le
    have hwcq : (0 : ℚ) ≤ wc := by exact_mod_cast hwc.le
    have pa : r ^ s ≤ r ^ a.toNat := pow_le_pow_right₀ hr.le hsa
    have pb : r ^ s ≤ r ^ b.toNat := pow_le_pow_right₀ hr.le hsb
    exact ⟨le_trans (mul_le_mul_of_nonneg_left pa hwrq) h3,
      le_trans (mul_le_mul_of_nonneg_left pb hwcq) h4⟩

/-- A call with a valid input returns in every accurate arithmetic: at each planned
scale the resampled image is at least as large as the window and at most as large
as the image, the windows of the scale are at most as many as its contribution to
the pre-allocation bound, and the local variables at the `return` are those of
the planned windows. -/
theorem run_eq_accurate {α : Type} (D : DoubleArith) (hD : Accurate D)
    (interp : Mat α → ℚ → ℚ → Int → Int → α) (img : Mat α)
    (wr wc : Int) (r : ℚ) (max_nscales stride : Int) (fe : Option (Mat α → List ℚ))
    (hv : valid_input img wr wc r max_nscales stride) :
    ∃ n : Nat, 1 ≤ n ∧ num_scales D img.rows img.cols wr wc r = .ok (n : Int) ∧
      (∀ s : Nat, s < n →
        r ^ s ≤ 2 ^ 32 ∧
        wr ≤ resampled_extent D img.rows r s ∧ resampled_extent D img.rows r s ≤ img.rows ∧
        wc ≤ resampled_extent D img.cols r s ∧ resampled_extent D img.cols r s ≤ img.cols ∧
        ((windows_at_scale D img.rows img.cols wr wc r stride s).length : Int)
          ≤ ub_term D img.rows img.cols wr wc r stride s) ∧
      nslidewins_total_ub D img.rows img.cols wr wc r stride n
        = .ok (((List.range' 0 n).map (ub_term D img.rows img.cols wr wc r stride)).sum) ∧
      run D interp img wr wc r max_nscales stride fe
        = .ok (final_state D interp img wr wc r fe n
            (planned_windows D img.rows img.cols wr wc r stride n)) := by
  obtain ⟨hwr, hwc, hr, _, hs0, hR, hC, hR1, hC1, hs1⟩ := hv
  obtain ⟨n, hn1, hn, hfit⟩ :=
    num_scales_accurate D hD img.rows img.cols wr wc r hwr hR hR1 hwc hC hC1 hr
  have hall : ∀ s : Nat, s < n →
      r ^ s ≤ 2 ^ 32 ∧
      wr ≤ resampled_extent D img.rows r s ∧ resampled_extent D img.rows r s ≤ img.rows ∧
      wc ≤ resampled_extent D img.cols r s ∧ resampled_extent D img.cols r s ≤ img.cols ∧
      ((windows_at_scale D img.rows img.cols wr wc r stride s).length : Int)
        ≤ ub_term D img.rows img.cols wr wc r stride s := by
    intro s hs
    obtain ⟨f1, f2⟩ := hfit s hs
    obtain ⟨hp, e1, e2⟩ := resampled_extent_bounds D hD img.rows wr r s hr hwr hR1 f1
    obtain ⟨_, e3, e4⟩ := resampled_extent_bounds D hD img.cols wc r s hr hwc hC1 f2
    exact ⟨hp, e1, e2, e3, e4,
      length_windows_at_scale_le D hD img.rows img.cols wr wc r stride s hr hwr hwc hR1 hC1
        hs0 hs1 f1 f2⟩
  obtain ⟨hub, hrun⟩ := run_eq_of_fits D interp img wr wc r max_nscales stride fe hwr hwc
    hs0 hs1 (by omega) (by omega) n hn
    (fun s hs => by
      obtain ⟨hp, e1, e2, e3, e4, _⟩ := hall s hs
      exact ⟨(accurate_scale D hD r s hr hp).2.2.2.2.1, e1, by omega, e3, by omega⟩)
    (fun s hs => le_trans (Int.natCast_nonneg _) (hall s hs).2.2.2.2.2)
  exact ⟨n, hn1, hn, hall, hub, hrun⟩

/-- The vector `scales` after the loop over the scales: the powers of the scale ratio. -/
theorem set_scales_append (D : DoubleArith) (r : ℚ) : ∀ (todo s : Nat) (pre : List ℚ), pre.length = s →
    set_scales D r todo s (pre ++ List.replicate todo 0)
      = pre ++ (List.range' s todo).map (fun k => D.pow r k) := by
  intro todo
  induction todo with
  | zero => intro s pre _; simp [set_scales]
  | succ todo ih =>
    intro s pre hpre
    have h1 : (pre ++ List.replicate (todo + 1) 0).set s (D.pow r s)
        = (pre ++ [D.pow r s]) ++ List.replicate todo 0 := by
      rw [List.set_append_right _ _ (by omega), hpre, Nat.sub_self, List.replicate_succ]
      simp
    rw [set_scales, h1, ih (s + 1) (pre ++ [D.pow r s]) (by simp [hpre])]
    simp [List.range'_succ]

theorem set_scales_replicate (D : DoubleArith) (r : ℚ) (n : Nat) :
    set_scales D r n 0 (List.replicate n 0) = (List.range n).map (fun k => D.pow r k) := by
  have := set_scales_append D r n 0 [] rfl
  simpa [List.range_eq_range'] using this

/-! ## Invariants of the loops -/

/-- A property that every execution of the body preserves holds after a `for` loop
that exits. -/
theorem for_loop_invariant (P : State → Prop) (bound step : Nat)
    (body : Nat → State → Except Fault State)
    (hbody : ∀ i st st1, P st → body i st = .ok st1 → P st1) :
    ∀ (fuel i : Nat) (st st1 : State), P st →
      for_loop bound step body fuel i st = .ok st1 → P st1 := by
  intro fuel
  induction fuel with
  | zero =>
    intro i st st1 _ h
    simp [for_loop] at h
  | succ fuel ih =>
    intro i st st1 hP h
    rw [for_loop] at h
    split_ifs at h with hi
    · cases hb : body i st with
      | error e => rw [hb] at h; cases h
      | ok st2 =>
        rw [hb] at h
        exact ih _ st2 st1 (hbody i st st2 hP hb) h
    · cases h
      exact hP

/-- A `for` loop with a positive bound that exits has run D its body at position 0. -/
theorem for_loop_first (Q P : State → Prop) (bound step : Nat)
    (body : Nat → State → Except Fault State) (hb : 0 < bound)
    (hfirst : ∀ st st1, Q st → body 0 st = .ok st1 → P st1)
    (hbody : ∀ i st st1, P st → body i st = .ok st1 → P st1) :
    ∀ (fuel : Nat) (st st1 : State), Q st →
      for_loop bound step body fuel 0 st = .ok st1 → P st1 := by
  intro fuel st st1 hQ h
  cases fuel with
  | zero => simp [for_loop] at h
  | succ fuel =>
    rw [for_loop, if_pos hb] at h
    cases hb0 : body 0 st with
    | error e => rw [hb0] at h; cases h
    | ok st2 =>
      rw [hb0] at h
      exact for_loop_invariant P bound step body hbody fuel _ st2 st1 (hfirst st st2 hQ hb0) h

theorem slide_windows_invariant {α : Type} (D : DoubleArith) (P : State → Prop) (img_cur : Mat α)
    (wr wc : Int) (sc : ℚ) (stride : Int) (fe : Option (Mat α → List ℚ)) (s : Nat)
    (hbody : ∀ i j st st1, P st → window_body D img_cur wr wc sc fe s i j st = .ok st1 → P st1)
    (st st1 : State) (hP : P st)
    (h : slide_windows D img_cur wr wc sc stride fe s st = .ok st1) : P st1 := by
  unfold slide_windows at h
  exact for_loop_invariant P (to_size_t (img_cur.rows - wr + 1)) (to_size_t stride)
    (fun i sti =>
      for_loop (to_size_t (img_cur.cols - wc + 1)) (to_size_t stride)
        (window_body D img_cur wr wc sc fe s i) SIZE_MOD 0 sti)
    (fun i sti stj hPi hi => for_loop_invariant P _ _ _ (hbody i) _ _ sti stj hPi hi)
    SIZE_MOD 0 st st1 hP h

theorem slide_windows_first {α : Type} (D : DoubleArith) (Q P : State → Prop) (img_cur : Mat α)
    (wr wc : Int) (sc : ℚ) (stride : Int) (fe : Option (Mat α → List ℚ)) (s : Nat)
    (hr : 0 < to_size_t (img_cur.rows - wr + 1)) (hc : 0 < to_size_t (img_cur.cols - wc + 1))
    (hfirst : ∀ st st1, Q st → window_body D img_cur wr wc sc fe s 0 0 st = .ok st1 → P st1)
    (hbody : ∀ i j st st1, P st → window_body D img_cur wr wc sc fe s i j st = .ok st1 → P st1)
    (st st1 : State) (hQ : Q st)
    (h : slide_windows D img_cur wr wc sc stride fe s st = .ok st1) : P st1 := by
  unfold slide_windows at h
  exact for_loop_first Q P (to_size_t (img_cur.rows - wr + 1)) (to_size_t stride)
    (fun i sti =>
      for_loop (to_size_t (img_cur.cols - wc + 1)) (to_size_t stride)
        (window_body D img_cur wr wc sc fe s i) SIZE_MOD 0 sti) hr
    (fun sti stj hQi hi => for_loop_first Q P _ _ _ hc hfirst (hbody 0) _ sti stj hQi hi)
    (fun i sti stj hPi hi => for_loop_invariant P _ _ _ (hbody i) _ _ sti stj hPi hi)
    SIZE_MOD st st1 hQ h

theorem scale_loop_invariant {α : Type} (D : DoubleArith) (P : State → Prop)
    (interp : Mat α → ℚ → ℚ → Int → Int → α) (img : Mat α) (wr wc : Int) (r : ℚ)
    (stride : Int) (fe : Option (Mat α → List ℚ))
    (hset : ∀ (st : State) (l : List ℚ), P st → P { st with scales := l })
    (hbody : ∀ (img_cur : Mat α) (sc : ℚ) (s i j : Nat) (st st1 : State), P st →
      window_body D img_cur wr wc sc fe s i j st = .ok st1 → P st1) :
    ∀ (todo s : Nat) (st st1 : State), P st →
      scale_loop D interp img wr wc r stride fe todo s st = .ok st1 → P st1 := by
  intro todo
  induction todo with
  | zero =>
    intro s st st1 hP h
    simp only [scale_loop] at h
    cases h
    exact hP
  | succ todo ih =>
    intro s st st1 hP h
    rw [scale_loop] at h
    simp only [] at h
    split at h
    · cases h
    · rename_i img_cur hres
      split at h
      · cases h
      · rename_i st2 hsl
        exact ih (s + 1) st2 st1
          (slide_windows_invariant D P img_cur wr wc _ stride fe s
            (fun i j sta stb hPa hb => hbody img_cur _ s i j sta stb hPa hb) _ st2
            (hset st _ hP) hsl) h

theorem window_body_starts {α : Type} (D : DoubleArith) (img_cur : Mat α) (wr wc : Int) (sc : ℚ)
    (fe : Option (Mat α → List ℚ)) (s0 s i j : Nat) (st st1 : State)
    (hst : starts_at_scale s0 st) (h : window_body D img_cur wr wc sc fe s i j st = .ok st1) :
    starts_at_scale s0 st1 := by
  obtain ⟨rect, rs, is, h1, h2⟩ := hst
  cases fe with
  | none =>
    simp only [window_body] at h
    cases h
    exact ⟨rect, rs ++ [(Rect.mk (std_round (D.mul j sc)) (std_round (D.mul i sc))
        (std_round (D.mul wc sc)) (std_round (D.mul wr sc)))], is ++ [s],
        by simp [h1], by simp [h2]⟩
  | some f =>
    simp only [window_body] at h
    split at h
    · cases h
    · cases h
      exact ⟨rect, rs ++ [(Rect.mk (std_round (D.mul j sc)) (std_round (D.mul i sc))
        (std_round (D.mul wc sc)) (std_round (D.mul wr sc)))], is ++ [s],
        by simp [h1], by simp [h2]⟩

theorem window_body_first {α : Type} (D : DoubleArith) (img_cur : Mat α) (wr wc : Int) (sc : ℚ)
    (fe : Option (Mat α → List ℚ)) (s i j : Nat) (st st1 : State)
    (hst : st.dr = [] ∧ st.idx2scale4dr = [])
    (h : window_body D img_cur wr wc sc fe s i j st = .ok st1) : starts_at_scale s st1 := by
  obtain ⟨h1, h2⟩ := hst
  cases fe with
  | none =>
    simp only [window_body] at h
    cases h
    exact ⟨(Rect.mk (std_round (D.mul j sc)) (std_round (D.mul i sc))
        (std_round (D.mul wc sc)) (std_round (D.mul wr sc))), [], [],
        by simp [h1], by simp [h2]⟩
  | some f =>
    simp only [window_body] at h
    split at h
    · cases h
    · cases h
      exact ⟨(Rect.mk (std_round (D.mul j sc)) (std_round (D.mul i sc))
        (std_round (D.mul wc sc)) (std_round (D.mul wr sc))), [], [],
        by simp [h1], by simp [h2]⟩

theorem resize_eq_ok {α : Type} (D : DoubleArith) (interp : Mat α → ℚ → ℚ → Int → Int → α) (src : Mat α)
    (fx fy : ℚ) (m : Mat α) (h : resize D interp src fx fy = .ok m) :
    m = resized D interp src fx fy := by
  unfold resize at h
  split_ifs at h
  cases h
  rfl

/-- A call that plans at least one scale and whose loop bounds at scale index 0 are
positive as `size_t` values has, when it returns, pushed a rectangle of scale
index 0 first. -/
theorem run_starts_at_scale_zero {α : Type} (D : DoubleArith) (interp : Mat α → ℚ → ℚ → Int → Int → α)
    (img : Mat α) (wr wc : Int) (r : ℚ) (max_nscales stride : Int)
    (fe : Option (Mat α → List ℚ)) (n : Int)
    (hn : num_scales D img.rows img.cols wr wc r = .ok n) (h1 : 1 ≤ n)
    (hr : 0 < to_size_t ((resampled D interp img r 0).rows - wr + 1))
    (hc : 0 < to_size_t ((resampled D interp img r 0).cols - wc + 1))
    (st : State) (h : run D interp img wr wc r max_nscales stride fe = .ok st) :
    starts_at_scale 0 st := by
  unfold run at h
  rw [hn] at h
  simp only [] at h
  rw [if_neg (by omega)] at h
  split at h
  · cases h
  · obtain ⟨m, hm⟩ : ∃ m : Nat, n.toNat = m + 1 := ⟨n.toNat - 1, by omega⟩
    rw [hm, scale_loop] at h
    simp only [] at h
    have hget : ((List.replicate (m + 1) (0 : ℚ)).set 0 (D.pow r 0)).getD 0 0 = D.pow r 0 := by
      simp [List.replicate_succ]
    rw [hget] at h
    split at h
    · cases h
    · rename_i img_cur hres
      have himg : img_cur = resampled D interp img r 0 := resize_eq_ok D interp img _ _ _ hres
      subst himg
      split at h
      · cases h
      · rename_i st2 hsl
        have h2 : starts_at_scale 0 st2 :=
          slide_windows_first D (fun s => s.dr = [] ∧ s.idx2scale4dr = []) (starts_at_scale 0)
            _ wr wc _ stride fe 0 hr hc
            (fun sta stb hQ hb => window_body_first D _ wr wc _ fe 0 0 0 sta stb hQ hb)
            (fun i j sta stb hP hb => window_body_starts D _ wr wc _ fe 0 0 i j sta stb hP hb)
            _ st2 ⟨rfl, rfl⟩ hsl
        exact scale_loop_invariant D (starts_at_scale 0) interp img wr wc r stride fe
          (fun sta l hP => hP)
          (fun img_cur sc s i j sta stb hP hb =>
            window_body_starts D img_cur wr wc sc fe 0 s i j sta stb hP hb)
          m 1 st2 st h2 h

theorem rects_of_scale_ne_nil (st : State) (s : Nat) (h : starts_at_scale s st) :
    rects_of_scale st s ≠ [] := by
  obtain ⟨rect, rs, is, h1, h2⟩ := h
  simp [rects_of_scale, h1, h2]

/-! ## Scale index 0 and the far edge -/

/-- In an accurate arithmetic the image resampled at scale index 0 has the extent
of the image. -/
theorem resampled_extent_zero_accurate (D : DoubleArith) (hD : Accurate D) (X : Int) (r : ℚ)
    (hr : 1 < r) (hX0 : 0 < X) (hX1 : X < 2 ^ 31) : resampled_extent D X r 0 = X := by
  have hfit : (X : ℚ) * r ^ 0 ≤ X * (1 + rel_err) := by
    have h1 : (0 : ℚ) < X := by exact_mod_cast hX0
    have := rel_err_pos
    rw [pow_zero, mul_one]
    nlinarith
  obtain ⟨_, h1, h2⟩ := resampled_extent_bounds D hD X X r 0 hr hX0 hX1 hfit
  omega

/-- The planned windows include the windows of scale index 0. -/
theorem length_windows_at_scale_zero_le (D : DoubleArith) (R C wr wc : Int) (r : ℚ)
    (stride : Int) (n : Nat) (hn : 1 ≤ n) :
    (windows_at_scale D R C wr wc r stride 0).length
      ≤ (planned_windows D R C wr wc r stride n).length := by
  obtain ⟨m, rfl⟩ : ∃ m, n = m + 1 := ⟨n - 1, by omega⟩
  unfold planned_windows
  rw [List.range'_succ, List.flatMap_cons, List.length_append]
  omega

/-- C1 (the code at the failing input): for the 256x256 image, window 64x64,
scale ratio 2, max_nscales 2 and stride 32 the input is valid, the code plans 3
scales, more than max_nscales, and the last returned rectangle comes from scale
index 2. -/
theorem num_scales_exceeds_max_nscales :
    valid_input (blank_image 256 256) 64 64 2 2 32 ∧
    num_scales exact_arith 256 256 64 64 2 = .ok 3 ∧
    (run exact_arith blank_interp (blank_image 256 256) 64 64 2 2 32 none).toOption.map
      (fun st => (st.scales.length, st.idx2scale4dr.getLast?, st.dr.getLast?))
      = some (3, some 2, some ⟨0, 0, 256, 256⟩) := by
  refine ⟨by norm_num [valid_input, blank_image], by decide!, by decide!⟩

/-- C2 (the code at the failing input): for the 1000x1000 image, window 1x1 and
scale ratio 10 the iterative probe counts 4 scales (`1 * 10 ^ 3 ≤ 1000`) and the
closed form over the real logarithm is 4 as well, while the code returns the
floor that the `double` computation of lines 54-55 yields, plus one: 4 without
rounding error, and 3 in the accurate arithmetic `rounded_log_arith`, which has
the floor 2 of the IEEE-754 binary64 quotient
`std::log (1000.0) / std::log (10.0) = 2.9999999999999996`. -/
theorem closed_form_follows_double_floor :
    iterative_probe 1000 1000 1 1 10 = 4 ∧
    min ⌊Real.log ((1000 : ℝ) / 1) / Real.log 10⌋ ⌊Real.log ((1000 : ℝ) / 1) / Real.log 10⌋ + 1
      = 4 ∧
    (∀ D : DoubleArith,
      num_scales D 1000 1000 1 1 10 = .ok (D.log_quot_floor 1000 1 10 + 1)) ∧
    num_scales exact_arith 1000 1000 1 1 10 = .ok 4 ∧
    Accurate rounded_log_arith ∧
    num_scales rounded_log_arith 1000 1000 1 1 10 = .ok 3 ∧
    (run rounded_log_arith blank_interp (blank_image 1000 1000) 1 1 10 2 400 none).toOption.map
      (fun st => (st.scales.length, st.dr.length, st.dr.getLast?))
      = some (3, 11, some ⟨0, 0, 100, 100⟩) := by
  refine ⟨by decide!, ?_, ?_, by decide!, rounded_log_arith_accurate, by decide!, by decide!⟩
  · have h := floor_log_eq_floor_real_log 10 (1000 / 1) (by norm_num) (by norm_num)
      (by norm_num)
    push_cast at h
    rw [← h]
    decide!
  · intro D
    simp [num_scales]

/-- C8 (the code at the input of the example): for the 256x256 image, window 64x64,
scale ratio 2, max_nscales 2, stride 32 and no extractor the code processes 3
scales and returns 59 rectangles, 49 of scale index 0, 9 of scale index 1 and 1 of
scale index 2, and no feature vector. -/
theorem example_256_returns_59_rects :
    (run exact_arith blank_interp (blank_image 256 256) 64 64 2 2 32 none).toOption.map
      (fun st => (st.scales.length, st.dr.length, (rects_of_scale st 0).length,
        (rects_of_scale st 1).length, (rects_of_scale st 2).length, st.feats.length))
      = some (3, 59, 49, 9, 1, 0) := by
  decide!

/-- C14 (the code at the failing input): for the 100x100 image, window 90x90, scale
ratio 2 and stride 32 the input is valid, one scale is planned, the product of
lines 66-67 without the increment is `(3 - 2 + 1) * (3 - 2 + 1) = 4` and the
pre-allocation bound is 9, while the loops emit 1 window at scale index 0.  For
the 7x7 image, window 1x1, scale ratio 4 and stride 1 the product without the
increment at scale index 1 is 1, while the loops emit 4 windows there. -/
theorem nsw_without_increment_not_exact :
    valid_input (blank_image 100 100) 90 90 2 2 32 ∧
    nsw_without_increment exact_arith 100 100 90 90 2 32 0 = 4 ∧
    nslidewins_total_ub exact_arith 100 100 90 90 2 32 1 = .ok 9 ∧
    (run exact_arith blank_interp (blank_image 100 100) 90 90 2 2 32 none).toOption.map
      (fun st => (st.scales.length, (rects_of_scale st 0).length, st.dr))
      = some (1, 1, [⟨0, 0, 90, 90⟩]) ∧
    valid_input (blank_image 7 7) 1 1 4 2 1 ∧
    nsw_without_increment exact_arith 7 7 1 1 4 1 1 = 1 ∧
    (run exact_arith blank_interp (blank_image 7 7) 1 1 4 2 1 none).toOption.map
      (fun st => (st.scales.length, (rects_of_scale st 1).length)) = some (2, 4) := by
  refine ⟨by norm_num [valid_input, blank_image], by decide!, by decide!, by decide!,
    by norm_num [valid_input, blank_image], by decide!, by decide!⟩

/-- C15 (the code at the failing input): for the 2x2 image, window 4x4, scale ratio
1/2 and stride 1 two scales are planned; at scale index 0 the resampled image
has 2 rows, fewer than the window, and the loop bound `2 - 4 + 1 = -1` is
`2 ^ 64 - 1` as a `size_t`, so the loops are entered: with an extractor the call
ends in the `cv::Exception` of the sub-window, and without one it never returns
with no rectangle of scale index 0. -/
theorem negative_loop_bound_enters_loops :
    num_scales exact_arith (blank_image 2 2).rows (blank_image 2 2).cols 4 4 (1 / 2) = .ok 2 ∧
    resampled_extent exact_arith (blank_image 2 2).rows (1 / 2) 0 < 4 ∧
    to_size_t (resampled_extent exact_arith (blank_image 2 2).rows (1 / 2) 0 - 4 + 1)
      = 2 ^ 64 - 1 ∧
    multiscale_slidewins_image exact_arith blank_interp (blank_image 2 2) 4 4 (1 / 2) 2 1
        (some (fun m => [(m.rows : ℚ), (m.cols : ℚ)])) = .error .cv_error ∧
    ¬ ∃ st : State,
        run exact_arith blank_interp (blank_image 2 2) 4 4 (1 / 2) 2 1 none = .ok st ∧
        rects_of_scale st 0 = [] := by
  refine ⟨by decide!, by decide!, by decide!, by decide!, ?_⟩
  rintro ⟨st, hrun, hnil⟩
  exact rects_of_scale_ne_nil st 0
    (run_starts_at_scale_zero exact_arith blank_interp (blank_image 2 2) 4 4 (1 / 2) 2 1 none 2
      (by decide!) (by decide) (by decide!) (by decide!) st hrun) hnil

/-- C17: for every arithmetic, image, window size, scale ratio, stride and
extractor, two calls that differ only in `max_nscales` have the same outcome: the
same rectangles and the same feature vectors, or the same failure. -/
theorem result_independent_of_max_nscales {α : Type} (D : DoubleArith)
    (interp : Mat α → ℚ → ℚ → Int → Int → α) (img : Mat α) (wr wc : Int) (r : ℚ)
    (m1 m2 stride : Int) (fe : Option (Mat α → List ℚ)) :
    multiscale_slidewins_image D interp img wr wc r m1 stride fe
      = multiscale_slidewins_image D interp img wr wc r m2 stride fe := by
  unfold multiscale_slidewins_image run
  rfl

/-- C19 (the code at the failing input): for the 65536x65536 image, window 1x1,
scale ratio 2 and stride 1 the input is valid and, in every accurate arithmetic,
the call returns with `scales.size () == num_scales`, `scales[s]` the `double` power
`std::pow (scaleratio, s)`, and at least `2 ^ 32` rectangles (scale index 0 alone
contributes `65536 * 65536`) with as many scale indices, while the `unsigned int`
counter `nslidewins_total` is below `2 ^ 32`: it is `dr.size ()` modulo `2 ^ 32` and
differs from `dr.size ()`. -/
theorem nslidewins_total_wraps (D : DoubleArith) (hD : Accurate D) :
    valid_input (blank_image 65536 65536) 1 1 2 2 1 ∧
    ∃ (n : Nat) (st : State),
      num_scales D (blank_image 65536 65536).rows (blank_image 65536 65536).cols 1 1 2
        = .ok (n : Int) ∧
      run D blank_interp (blank_image 65536 65536) 1 1 2 2 1 none = .ok st ∧
      st.scales.length = n ∧ (∀ s : Nat, s < n → st.scales[s]? = some (D.pow 2 s)) ∧
      2 ^ 32 ≤ st.dr.length ∧ st.idx2scale4dr.length = st.dr.length ∧
      st.nslidewins_total = st.dr.length % 2 ^ 32 ∧
      st.nslidewins_total ≠ st.dr.length := by
  have hv : valid_input (blank_image 65536 65536) 1 1 2 2 1 := by
    norm_num [valid_input, blank_image]
  refine ⟨hv, ?_⟩
  obtain ⟨n, hn1, hn, _, _, hrun⟩ :=
    run_eq_accurate D hD blank_interp (blank_image 65536 65536) 1 1 2 2 1 none hv
  have h0 := length_windows_at_scale_zero_le D (blank_image 65536 65536).rows
    (blank_image 65536 65536).cols 1 1 2 1 n hn1
  have hR : resampled_extent D (blank_image 65536 65536).rows 2 0 = 65536 :=
    resampled_extent_zero_accurate D hD _ 2 (by norm_num) (by decide) (by decide)
  have hC : resampled_extent D (blank_image 65536 65536).cols 2 0 = 65536 :=
    resampled_extent_zero_accurate D hD _ 2 (by norm_num) (by decide) (by decide)
  rw [length_windows_at_scale, hR, hC] at h0
  have hlen : (2 : Nat) ^ 32
      ≤ (planned_windows D (blank_image 65536 65536).rows (blank_image 65536 65536).cols
          1 1 2 1 n).length := le_trans (by decide) h0
  have hsc : ∀ s : Nat, s < n →
      (set_scales D 2 n 0 (List.replicate n 0))[s]? = some (D.pow 2 s) := by
    intro s hs
    rw [set_scales_replicate, List.getElem?_map, List.getElem?_range hs]
    rfl
  refine ⟨n, _, hn, hrun, ?_, hsc, ?_, ?_, ?_, ?_⟩
  · simp [final_state, length_set_scales]
  · simpa [final_state] using hlen
  · simp [final_state]
  · simp [final_state, UINT_MOD]
  · have hlt : (planned_windows D (blank_image 65536 65536).rows
        (blank_image 65536 65536).cols 1 1 2 1 n).length % 2 ^ 32 < 2 ^ 32 :=
      Nat.mod_lt _ (by norm_num)
    simp only [final_state, UINT_MOD, List.length_map]
    omega

/-- C19 at the failing input in the arithmetic without rounding error. -/
theorem nslidewins_total_wraps_witness :
    valid_input (blank_image 65536 65536) 1 1 2 2 1 ∧
    ∃ (n : Nat) (st : State),
      num_scales exact_arith (blank_image 65536 65536).rows (blank_image 65536 65536).cols
        1 1 2 = .ok (n : Int) ∧
      run exact_arith blank_interp (blank_image 65536 65536) 1 1 2 2 1 none = .ok st ∧
      st.scales.length = n ∧
      (∀ s : Nat, s < n → st.scales[s]? = some (exact_arith.pow 2 s)) ∧
      2 ^ 32 ≤ st.dr.length ∧ st.idx2scale4dr.length = st.dr.length ∧
      st.nslidewins_total = st.dr.length % 2 ^ 32 ∧
      st.nslidewins_total ≠ st.dr.length :=
  nslidewins_total_wraps exact_arith exact_arith_accurate

end SlideWins
